import Mathlib

set_option maxRecDepth 8000
set_option maxHeartbeats 1000000

/-!
# A verification model of the SAAME spacing core

Shallow embedding of `src/services/fontService.ts`: the glyph-outline
mutation primitive, the two spacing algorithms (Tracy / Sousa), diacritic
propagation, the override layer, the metrics extractor, the binary
sanitizer and the export helpers.

Modelling conventions:
* JS numbers are rationals (`ℚ`).  A rational model has no NaN values, so
  the source's `isNaN` guards are identically false; each spot where the
  source checks `isNaN` is noted in a comment.
* The font object, mutated in place by the source, is modelled by explicit
  state passing: every mutator returns the updated `Font`.
* Binary buffers are lists of bytes (`List Nat`).
* The parsing library (opentype.js) is not part of the repository; its
  surface (`charToGlyph`, `getBoundingBox`, glyph/`cmap` access) is
  modelled from the spec (spec.md sections 3, 4.2 and 7): a bounding box is
  computed from the path's coordinates, an unmapped character resolves to
  no glyph and every operation on it is a silent no-op.
-/

/-- JS `Math.round`: round half toward positive infinity. -/
def jsRound (q : ℚ) : ℤ := (q + 0.5).floor

/-- Does the character list start with the pattern? (JS `String.startsWith`). -/
def listStartsWith : List Char → List Char → Bool
  | _, [] => true
  | [], _ :: _ => false
  | a :: s, b :: t => a == b && listStartsWith s t

/-- Does the character list contain the pattern as a contiguous run? -/
def listContainsSub : List Char → List Char → Bool
  | [], pat => pat.isEmpty
  | a :: s, pat => listStartsWith (a :: s) pat || listContainsSub s pat

/-- JS `haystack.includes(needle)` on strings. -/
def strContainsSub (s pat : String) : Bool := listContainsSub s.data pat.data

/-- One drawing command of a glyph path.  opentype.js commands carry an
optional end point (`x`,`y`) and optional control points (`x1`,`y1`),
(`x2`,`y2`); the type tag (`M`/`L`/`Q`/`C`/`Z`) is irrelevant to every
operation modelled here, which only reads or shifts whichever coordinates
are present. -/
structure PathCommand where
  x  : Option ℚ := none
  y  : Option ℚ := none
  x1 : Option ℚ := none
  y1 : Option ℚ := none
  x2 : Option ℚ := none
  y2 : Option ℚ := none
deriving DecidableEq

/-- Horizontal translation of one path command, exactly as performed by the
mutation primitive (fontService.ts lines 606-610 and `cleanMetrics` lines
565-569): each of `x`, `x1`, `x2` is shifted when present. -/
def shiftCommand (s : ℚ) (c : PathCommand) : PathCommand :=
  { c with x := c.x.map (· + s), x1 := c.x1.map (· + s), x2 := c.x2.map (· + s) }

/-- The coordinate pairs one command contributes to the bounding box. -/
def commandPoints (c : PathCommand) : List (ℚ × ℚ) :=
  (match c.x, c.y with
   | some a, some b => [(a, b)]
   | _, _ => []) ++
  (match c.x1, c.y1 with
   | some a, some b => [(a, b)]
   | _, _ => []) ++
  (match c.x2, c.y2 with
   | some a, some b => [(a, b)]
   | _, _ => [])

/-- All coordinate pairs of a path. -/
def pathPoints (p : List PathCommand) : List (ℚ × ℚ) :=
  p.foldr (fun c acc => commandPoints c ++ acc) []

/-- A glyph bounding box `(x1, y1, x2, y2)`. -/
structure BBox where
  x1 : ℚ
  y1 : ℚ
  x2 : ℚ
  y2 : ℚ
deriving DecidableEq

/-- Modelled from the spec: the parsing library's `glyph.getBoundingBox()`,
"a bounding box `(x1,y1,x2,y2)` computed from the path" (spec section 3).
An empty path yields the all-zero box, which is exactly the shape
`getCharMetrics` (fontService.ts line 430) tests for. -/
def pathBBox (p : List PathCommand) : BBox :=
  match pathPoints p with
  | [] => ⟨0, 0, 0, 0⟩
  | pt :: pts =>
      ⟨pts.foldl (fun m q => min m q.1) pt.1,
       pts.foldl (fun m q => min m q.2) pt.2,
       pts.foldl (fun m q => max m q.1) pt.1,
       pts.foldl (fun m q => max m q.2) pt.2⟩

/-- A glyph: optional name, optional Unicode code point, a path of drawing
commands and an advance width (spec section 3, Font Model). -/
structure Glyph where
  name : Option String := none
  unicode : Option Nat := none
  path : List PathCommand := []
  advanceWidth : ℚ := 0
  leftSideBearing : Option ℚ := none
deriving DecidableEq

/-- JS truthiness of `glyph.unicode`: absent (`undefined`) and `0` are falsy. -/
def uniTruthy : Option Nat → Bool
  | some u => u != 0
  | none => false

/-- fontService.ts lines 589-592 (also 526-529): the glyph resolves to the
space character when its name is `"space"`, its code point is 32, or its
name contains `"space"`. -/
def isSpaceGlyph (g : Glyph) : Bool :=
  g.name == some "space" || g.unicode == some 32 ||
    (match g.name with
     | some nm => strContainsSub nm "space"
     | none => false)

/-- Derived left side bearing: `lsb = x1` of the bounding box (spec section 3). -/
def lsbOf (g : Glyph) : ℚ := (pathBBox g.path).x1

/-- Derived right side bearing: `rsb = advanceWidth - x2` (spec section 3). -/
def rsbOf (g : Glyph) : ℚ := g.advanceWidth - (pathBBox g.path).x2

/-- The font document: the glyph set plus the character-to-glyph-index map
and the declared font-wide scalars (spec section 3, FontDocument). -/
structure Font where
  glyphs : List Glyph
  cmap : List (Char × Nat) := []
  unitsPerEm : ℚ := 1000
  ascender : ℚ := 800
  descender : ℚ := -200
deriving DecidableEq

/-- First-match association lookup in the character map. -/
def lookupChar : List (Char × Nat) → Char → Option Nat
  | [], _ => none
  | p :: t, c => if p.1 = c then some p.2 else lookupChar t c

/-- Modelled from the spec: the parsing library's "character-to-glyph lookup
by Unicode code point" (spec section 4.2); an unmapped character resolves to
no glyph and is treated as a silent no-op by every consumer
(spec section 7, geometric degeneracy). -/
def charToGlyphIndex (f : Font) (c : Char) : Option Nat := lookupChar f.cmap c

/-- Glyph-by-index lookup (spec section 4.2). -/
def glyphAt (f : Font) (i : Nat) : Option Glyph := f.glyphs.get? i

/-- `font.charToGlyph(c)`: the glyph the character resolves to, if any. -/
def charToGlyph (f : Font) (c : Char) : Option Glyph :=
  (charToGlyphIndex f c).bind (glyphAt f)

/-- The pure per-glyph core of `setGlyphSB` (fontService.ts lines 597-625),
run after the space and NaN guards: read the bounding box; if a left target
is given and the shift exceeds the `0.001` epsilon, translate every command
and recompute the box; if a right target is given, set
`advanceWidth = x2 + rsb` from the (possibly recomputed) box.  The source's
`isNaN` guards (lines 600, 605, 623) are identically false in the rational
model. -/
def applySB (g : Glyph) (lsb rsb : Option ℚ) : Glyph :=
  let bounds0 := pathBBox g.path
  let st : Glyph × BBox :=
    match lsb with
    | none => (g, bounds0)
    | some tl =>
        let shift := tl - bounds0.x1
        if 1/1000 < |shift| then
          let p := g.path.map (shiftCommand shift)
          ({ g with path := p, leftSideBearing := some tl }, pathBBox p)
        else (g, bounds0)
  match rsb with
  | none => st.1
  | some tr => { st.1 with advanceWidth := st.2.x2 + tr }

/-- The glyph-outline mutation primitive `setGlyphSB` (fontService.ts lines
586-626): resolve the character; no-op when it resolves to no glyph or to
the space glyph; otherwise replace the glyph by `applySB` of it.  (The
in-place mutation of the source is modelled by updating the glyph list at
the resolved index.) -/
def setGlyphSB (f : Font) (c : Char) (lsb rsb : Option ℚ) : Font :=
  match charToGlyphIndex f c with
  | none => f
  | some i =>
      match f.glyphs.get? i with
      | none => f
      | some g =>
          if isSpaceGlyph g then f
          else { f with glyphs := f.glyphs.set i (applySB g lsb rsb) }

/-- `DIACRITICS_MAP` (fontService.ts lines 9-63), transcribed verbatim. -/
def DIACRITICS_MAP : List (Char × List Char) :=
  [('A', ['Á','À','Â','Ä','Ã','Å','Ā','Ă','Ą','Ǎ','Ǻ']),
   ('B', ['Ḃ','Ḅ']),
   ('C', ['Ç','Ć','Ĉ','Ċ','Č']),
   ('D', ['Ď','Đ','Ḍ','Ḋ','Ḑ']),
   ('E', ['É','È','Ê','Ë','Ē','Ĕ','Ė','Ę','Ě']),
   ('F', ['Ḟ']),
   ('G', ['Ĝ','Ğ','Ġ','Ģ','Ǧ']),
   ('H', ['Ĥ','Ħ','Ḣ','Ḥ']),
   ('I', ['Í','Ì','Î','Ï','Ĩ','Ī','Ĭ','Į','İ']),
   ('J', ['Ĵ']),
   ('K', ['Ķ','Ǩ','Ḱ','Ḳ']),
   ('L', ['Ĺ','Ļ','Ľ','Ŀ','Ł','Ḷ','Ḹ']),
   ('M', ['Ḿ','Ṁ','Ṃ']),
   ('N', ['Ñ','Ń','Ņ','Ň','Ṅ','Ṇ']),
   ('O', ['Ó','Ò','Ô','Ö','Õ','Ø','Ō','Ŏ','Ő','Ǒ','Ǿ']),
   ('P', ['Ṕ','Ṗ']),
   ('Q', []),
   ('R', ['Ŕ','Ŗ','Ř','Ṙ','Ṛ']),
   ('S', ['Ś','Ŝ','Ş','Š','Ș','Ṡ','Ṣ']),
   ('T', ['Ţ','Ť','Ŧ','Ț','Ṫ','Ṭ']),
   ('U', ['Ú','Ù','Û','Ü','Ũ','Ū','Ŭ','Ů','Ű','Ų','Ǔ','Ǖ','Ǘ','Ǚ','Ǜ']),
   ('V', ['Ṽ','Ṿ']),
   ('W', ['Ŵ','Ẁ','Ẃ','Ẅ']),
   ('X', ['Ẋ','Ẍ']),
   ('Y', ['Ý','Ŷ','Ÿ','Ȳ','Ẏ','Ỳ']),
   ('Z', ['Ź','Ż','Ž','Ẓ']),
   ('a', ['á','à','â','ä','ã','å','ā','ă','ą','ǎ','ǻ']),
   ('b', ['ḃ','ḅ']),
   ('c', ['ç','ć','ĉ','ċ','č']),
   ('d', ['ď','đ','ḍ','ḋ','ḑ']),
   ('e', ['é','è','ê','ë','ē','ĕ','ė','ę','ě']),
   ('f', ['ḟ']),
   ('g', ['ĝ','ğ','ġ','ģ','ǧ']),
   ('h', ['ĥ','ħ','ḣ','ḥ']),
   ('i', ['í','ì','î','ï','ĩ','ī','ĭ','į','ı']),
   ('j', ['ĵ']),
   ('k', ['ķ','ǩ','ḱ','ḳ']),
   ('l', ['ĺ','ļ','ľ','ŀ','ł','ḷ','ḹ']),
   ('m', ['ḿ','ṁ','ṃ']),
   ('n', ['ñ','ń','ņ','ň','ṅ','ṇ']),
   ('o', ['ó','ò','ô','ö','õ','ø','ō','ŏ','ő','ǒ','ǿ']),
   ('p', ['ṕ','ṗ']),
   ('q', []),
   ('r', ['ŕ','ŗ','ř','ṙ','ṛ']),
   ('s', ['ś','ŝ','ş','š','ș','ṡ','ṣ']),
   ('t', ['ţ','ť','ŧ','ț','ṫ','ṭ']),
   ('u', ['ú','ù','û','ü','ũ','ū','ŭ','ů','ű','ų','ǔ','ǖ','ǘ','ǚ','ǜ']),
   ('v', ['ṽ','ṿ']),
   ('w', ['ŵ','ẁ','ẃ','ẅ']),
   ('x', ['ẋ','ẍ']),
   ('y', ['ý','ÿ','ŷ','ȳ','ẏ','ỳ']),
   ('z', ['ź','ż','ž','ẓ'])]

/-- Association lookup in the diacritics map. -/
def lookupDia : List (Char × List Char) → Char → Option (List Char)
  | [], _ => none
  | p :: t, c => if p.1 = c then some p.2 else lookupDia t c

/-- `DIACRITICS_MAP[char]`, defaulting to the empty variant list. -/
def diacriticsOf (c : Char) : List Char :=
  match lookupDia DIACRITICS_MAP c with
  | some l => l
  | none => []

/-- `applyRule` (fontService.ts lines 631-643), the shared base+propagation
step of both algorithms: apply the pair to the base character, then
immediately to every diacritic variant listed for it.  (Method B inlines
the identical sequence at lines 822-830.) -/
def applyRule (f : Font) (c : Char) (ruleLsb ruleRsb : Option ℚ) : Font :=
  (diacriticsOf c).foldl (fun f ch => setGlyphSB f ch ruleLsb ruleRsb)
    (setGlyphSB f c ruleLsb ruleRsb)

/-- An `{lsb, rsb}` master measurement pair. -/
structure SBPair where
  lsb : ℚ
  rsb : ℚ
deriving DecidableEq

/-- Modelled from the spec (section 3, SpacingSettings; the `types` module is
not part of the repository snapshot): four master `{lsb,rsb}` pairs for
`H`, `O`, `n`, `o` plus per-character overrides whose sides may be null
("leave unchanged on that side").  Override insertion order is kept as a
list; JS object keys are unique. -/
structure SpacingSettings where
  H : SBPair
  O : SBPair
  n : SBPair
  o : SBPair
  overrides : List (Char × Option ℚ × Option ℚ) := []
deriving DecidableEq

/-- One base-plus-propagation application: a character with its
`{lsb, rsb}` targets. -/
abbrev Rule := Char × Option ℚ × Option ℚ

/-- The sequence of `applyRule` calls of `applyTracyMethod`
(fontService.ts lines 645-725), transcribed in source order: the four
masters, the uppercase rules, the lowercase rules (including the source's
duplicated `n` rule and the trailing `a` rule).  The derived values use the
source's literal multipliers. -/
def tracyRules (s : SpacingSettings) : List Rule :=
  let valH := s.H.lsb
  let valO := s.O.lsb
  let valMoreH : ℚ := (jsRound (valH * 1.15) : ℤ)
  let valLessH : ℚ := (jsRound (valH * 0.85) : ℤ)
  let valMin : ℚ := (max 5 (jsRound (valH * 0.25)) : ℤ)
  let valVisual : ℚ := (jsRound ((valH + valO) / 2) : ℤ)
  let nStem := s.n.lsb
  let nArch := s.n.rsb
  let oRound := s.o.lsb
  let valMoreN : ℚ := (jsRound (nStem * 1.15) : ℤ)
  let valLessO : ℚ := (jsRound (oRound * 0.9) : ℤ)
  let valLowMin : ℚ := (max 5 (jsRound (nStem * 0.25)) : ℤ)
  let valLowVisual : ℚ := (jsRound ((nStem + oRound) / 2) : ℤ)
  [('H', some s.H.lsb, some s.H.rsb),
   ('O', some s.O.lsb, some s.O.rsb),
   ('n', some s.n.lsb, some s.n.rsb),
   ('o', some s.o.lsb, some s.o.rsb),
   ('A', some valMin, some valMin),
   ('B', some valH, some valLessH),
   ('C', some valO, some valLessH),
   ('D', some valH, some valO),
   ('E', some valH, some valLessH),
   ('F', some valH, some valLessH),
   ('G', some valO, some valMoreH),
   ('H', some valH, some valH),
   ('I', some valH, some valH),
   ('J', some valMin, some valH),
   ('K', some valH, some valMin),
   ('L', some valH, some valMin),
   ('M', some valMoreH, some valMoreH),
   ('N', some valMoreH, some valMoreH),
   ('O', some valO, some valO),
   ('P', some valH, some valO),
   ('Q', some valO, some valO),
   ('R', some valH, some valMin),
   ('S', some valVisual, some valVisual),
   ('T', some valMin, some valMin),
   ('U', some valH, some valMoreH),
   ('V', some valMin, some valMin),
   ('W', some valMin, some valMin),
   ('X', some valMin, some valMin),
   ('Y', some valMin, some valMin),
   ('Z', some valLessH, some valLessH),
   ('b', some nStem, some oRound),
   ('c', some oRound, some valLessO),
   ('d', some oRound, some nStem),
   ('e', some oRound, some valLessO),
   ('f', some valLowMin, some valLowMin),
   ('g', some oRound, some nStem),
   ('h', some valMoreN, some nArch),
   ('i', some valMoreN, some nStem),
   ('j', some nStem, some nStem),
   ('k', some nStem, some valLowMin),
   ('l', some valMoreN, some nStem),
   ('m', some nStem, some nArch),
   ('n', some nStem, some nArch),
   ('n', some nStem, some nArch),
   ('o', some oRound, some oRound),
   ('p', some valMoreN, some oRound),
   ('q', some oRound, some nStem),
   ('r', some nStem, some valLowMin),
   ('s', some valLessO, some valLessO),
   ('t', some nStem, some valLowMin),
   ('u', some nStem, some nStem),
   ('v', some valLowMin, some valLowMin),
   ('w', some valLowMin, some valLowMin),
   ('x', some valLowVisual, some valLowVisual),
   ('y', some valLowMin, some valLowMin),
   ('z', some valLowVisual, some valLowVisual),
   ('a', some oRound, some nStem)]

/-- One `applyRule` invocation from a rule triple. -/
def ruleStep (f : Font) (r : Rule) : Font := applyRule f r.1 r.2.1 r.2.2

/-- One raw `setGlyphSB` invocation from an override triple
(fontService.ts lines 730-733 and 835-838). -/
def ovStep (f : Font) (r : Rule) : Font := setGlyphSB f r.1 r.2.1 r.2.2

/-- `applyTracyMethod` (fontService.ts lines 628-734): the rule sequence in
source order, then the explicit overrides, applied last and
unconditionally. -/
def applyTracyMethod (f : Font) (s : SpacingSettings) : Font :=
  s.overrides.foldl ovStep ((tracyRules s).foldl ruleStep f)

/-- The edge-shape categories of the classification table
(Straight / Round / Arch / Vertex-diagonal). -/
inductive Topo where
  | S : Topo
  | R : Topo
  | A : Topo
  | V : Topo
deriving DecidableEq

/-- `TOPOLOGY` (fontService.ts lines 736-791), transcribed in source
(insertion) order: per letter the left and right edge categories. -/
def TOPOLOGY : List (Char × Topo × Topo) :=
  [('A', .V, .V), ('B', .S, .R), ('C', .R, .S), ('D', .S, .R),
   ('E', .S, .S), ('F', .S, .S), ('G', .R, .S), ('H', .S, .S),
   ('I', .S, .S), ('J', .V, .S), ('K', .S, .V), ('L', .S, .V),
   ('M', .S, .S), ('N', .S, .S), ('O', .R, .R), ('P', .S, .R),
   ('Q', .R, .R), ('R', .S, .V), ('S', .V, .V), ('T', .V, .V),
   ('U', .S, .S), ('V', .V, .V), ('W', .V, .V), ('X', .V, .V),
   ('Y', .V, .V), ('Z', .V, .V),
   ('a', .R, .S), ('b', .S, .R), ('c', .R, .R), ('d', .R, .S),
   ('e', .R, .R), ('f', .V, .V), ('g', .R, .S), ('h', .S, .A),
   ('i', .S, .S), ('j', .S, .S), ('k', .S, .V), ('l', .S, .S),
   ('m', .S, .A), ('n', .S, .A), ('o', .R, .R), ('p', .S, .R),
   ('q', .R, .S), ('r', .S, .V), ('s', .V, .V), ('t', .S, .V),
   ('u', .S, .S), ('v', .V, .V), ('w', .V, .V), ('x', .V, .V),
   ('y', .V, .V), ('z', .V, .V)]

/-- JS uppercase test used by the source:
`char === char.toUpperCase() && char !== char.toLowerCase()` (exact for the
Latin letters the algorithms feed it). -/
def jsIsUpper (c : Char) : Bool := c.toUpper == c && c.toLower != c

/-- `getValue` (fontService.ts lines 797-812): resolve a numeric value for
an edge category from the matching master component; the uppercase branch
has no Arch case and falls through to the safe fallback `20`. -/
def getValue (s : SpacingSettings) (c : Char) (t : Topo) : ℚ :=
  if jsIsUpper c then
    match t with
    | .S => s.H.lsb
    | .R => s.O.lsb
    | .V => (jsRound (s.H.lsb * 0.5) : ℤ)
    | .A => 20
  else
    match t with
    | .S => s.n.lsb
    | .A => s.n.rsb
    | .R => s.o.lsb
    | .V => (jsRound (s.n.lsb * 0.5) : ℤ)

/-- First-match lookup in the override table; JS `overrides[char]` (object
keys are unique). -/
def ovLookup : List (Char × Option ℚ × Option ℚ) → Char → Option (Option ℚ × Option ℚ)
  | [], _ => none
  | p :: t, c => if p.1 = c then some p.2 else ovLookup t c

/-- `setMasterSafe` (fontService.ts lines 842-846): re-assert a master's
exact values unless the user has explicitly overridden that letter. -/
def setMasterSafe (ov : List (Char × Option ℚ × Option ℚ)) (f : Font) (c : Char) (v : SBPair) : Font :=
  if (ovLookup ov c).isSome then f else setGlyphSB f c (some v.lsb) (some v.rsb)

/-- `applySousaMethod` (fontService.ts lines 793-852): for every letter of
the classification table apply the topology-derived pair and propagate to
its diacritics (the inline body of lines 815-831 is exactly `applyRule`),
then apply the overrides, then re-assert the four masters in source order
(`n`, `o`, `H`, `O`) unless individually overridden. -/
def applySousaMethod (f : Font) (s : SpacingSettings) : Font :=
  let f1 := TOPOLOGY.foldl (fun f e =>
    applyRule f e.1 (some (getValue s e.1 e.2.1)) (some (getValue s e.1 e.2.2))) f
  let f2 := s.overrides.foldl ovStep f1
  setMasterSafe s.overrides
    (setMasterSafe s.overrides
      (setMasterSafe s.overrides
        (setMasterSafe s.overrides f2 'n' s.n) 'o' s.o) 'H' s.H) 'O' s.O

/-- `getCharMetrics` (fontService.ts lines 424-437): `{lsb:0, rsb:0}` for an
unresolved character; `{lsb:0, rsb:advanceWidth}` for an empty glyph
(all-zero box and no commands); otherwise the rounded box-derived pair. -/
def getCharMetrics (f : Font) (c : Char) : ℚ × ℚ :=
  match charToGlyph f c with
  | none => (0, 0)
  | some g =>
      let box := pathBBox g.path
      if box.x1 = 0 ∧ box.x2 = 0 ∧ box.y1 = 0 ∧ box.y2 = 0 ∧ g.path = [] then
        (0, g.advanceWidth)
      else
        ((jsRound box.x1 : ℤ), (jsRound (g.advanceWidth - box.x2) : ℤ))

/-- The derived metrics snapshot (spec section 3, Metrics). -/
structure Metrics where
  ascender : ℤ
  descender : ℤ
  unitsPerEm : ℚ
  xHeight : ℚ
  capHeight : ℚ
deriving DecidableEq

/-- `measureMetric` (fontService.ts lines 275-297): visual extremum of the
box `y2` (or `y1`) over the probe characters that have non-empty outlines,
falling back to the given declared value, rounded. -/
def measureMetric (f : Font) (chars : List Char) (isMax : Bool) (fallback : ℚ) : ℤ :=
  let st := chars.foldl (fun (st : ℚ × Bool) c =>
    match charToGlyph f c with
    | some g =>
        if g.path.length > 0 then
          let box := pathBBox g.path
          if isMax then
            if !st.2 || box.y2 > st.1 then (box.y2, true) else st
          else
            if !st.2 || box.y1 < st.1 then (box.y1, true) else st
        else st
    | none => st) (fallback, false)
  jsRound st.1

/-- The metrics-extraction part of `createFontState` (fontService.ts lines
275-321): empirical ascender/descender over the fixed probe sets, then
x-height and cap-height as the box heights of `x` and `H` when those
characters resolve to real mapped glyphs (truthy `unicode`), else `0`. -/
def createMetrics (f : Font) : Metrics :=
  let visAscender := measureMetric f ['d', 'h', 'l', 'b', 'k', 'H'] true f.ascender
  let visDescender := measureMetric f ['p', 'q', 'y', 'g'] false f.descender
  let m0 : Metrics := ⟨visAscender, visDescender, f.unitsPerEm, 0, 0⟩
  let m1 :=
    match charToGlyph f 'x' with
    | some g =>
        if uniTruthy g.unicode then
          { m0 with xHeight := (pathBBox g.path).y2 - (pathBBox g.path).y1 }
        else m0
    | none => m0
  match charToGlyph f 'H' with
  | some g =>
      if uniTruthy g.unicode then
        { m1 with capHeight := (pathBBox g.path).y2 - (pathBBox g.path).y1 }
      else m1
  | none => m1

/-- JS `String.trim`: strip leading and trailing whitespace. -/
def jsTrim (s : String) : String :=
  String.mk (((s.data.dropWhile Char.isWhitespace).reverse.dropWhile Char.isWhitespace).reverse)

/-- A character matched by the source's safe-name character class
`[a-zA-Z0-9._]` (fontService.ts line 132). -/
def isSafeChar (c : Char) : Bool :=
  ('a' ≤ c && c ≤ 'z') || ('A' ≤ c && c ≤ 'Z') || ('0' ≤ c && c ≤ '9') || c == '.' || c == '_'

/-- `String(name).replace(/[^a-zA-Z0-9._]/g, '_')`: every character outside
the safe class becomes an underscore. -/
def sanitizeName (s : String) : String :=
  String.mk (s.data.map (fun c => if isSafeChar c then c else '_'))

/-- `'uni' + unicode.toString(16).toUpperCase().padStart(4, '0')`
(fontService.ts line 123). -/
def uniHexName (u : Nat) : String :=
  let ds := (Nat.toDigits 16 u).map Char.toUpper
  "uni" ++ String.mk (List.replicate (4 - ds.length) '0' ++ ds)

/-- The index-derived fallback tag `` `gid${i}` `` (fontService.ts lines 125, 134). -/
def gidName (i : Nat) : String := "gid" ++ toString i

/-- The per-glyph body of `ensureGlyphNames` (fontService.ts lines 118-136):
assign a Unicode- or index-derived name when the name is missing or blank,
then sanitize it, falling back to the index tag when sanitization leaves an
empty string. -/
def ensureGlyphName (i : Nat) (g : Glyph) : Glyph :=
  let assigned : String :=
    match g.name with
    | none => if uniTruthy g.unicode then uniHexName (g.unicode.getD 0) else gidName i
    | some s =>
        if (jsTrim s).isEmpty then
          (if uniTruthy g.unicode then uniHexName (g.unicode.getD 0) else gidName i)
        else s
  let safeName := sanitizeName assigned
  let finalName := if safeName.length = 0 then gidName i else safeName
  { g with name := some finalName }

/-- The indexed loop of `ensureGlyphNames` over the glyph list. -/
def ensureLoop (i : Nat) : List Glyph → List Glyph
  | [] => []
  | g :: t => ensureGlyphName i g :: ensureLoop (i + 1) t

/-- `ensureGlyphNames` (fontService.ts lines 113-138): early return on an
absent or empty glyph set, else rewrite every glyph's name in index order. -/
def ensureGlyphNames (f : Font) : Font :=
  if f.glyphs.length = 0 then f
  else { f with glyphs := ensureLoop 0 f.glyphs }

/-- `DataView.getUint8`: a single byte, failing (JS `RangeError`) out of
range. -/
def getUint8? (b : List Nat) (off : Nat) : Option Nat := b.get? off

/-- `DataView.getUint16` big-endian, failing out of range. -/
def getUint16? (b : List Nat) (off : Nat) : Option Nat :=
  match b.get? off, b.get? (off + 1) with
  | some hi, some lo => some (hi * 256 + lo)
  | _, _ => none

/-- The sanitizer's denylist test (fontService.ts line 89): the 4 tag bytes
spell `GPOS`, `GSUB`, `GDEF`, `JSTF`, `BASE` or `kern` (the source builds a
string with `String.fromCharCode` and compares; byte-wise comparison with
the ASCII codes of those tags is equivalent). -/
def isLayoutTag (t : Nat × Nat × Nat × Nat) : Bool :=
  [(71, 80, 79, 83), (71, 83, 85, 66), (71, 68, 69, 70),
   (74, 83, 84, 70), (66, 65, 83, 69), (107, 101, 114, 110)].contains t

/-- The sentinel tag `void` in ASCII (fontService.ts lines 91-95). -/
def voidTagBytes : Nat × Nat × Nat × Nat := (118, 111, 105, 100)

/-- The tag transformation one directory entry undergoes: a denylisted tag
becomes `void`, any other tag is untouched. -/
def voidify (t : Nat × Nat × Nat × Nat) : Nat × Nat × Nat × Nat :=
  if isLayoutTag t then voidTagBytes else t

/-- The 4 tag bytes of the table-directory entry starting at offset `p`. -/
def tagAt (b : List Nat) (p : Nat) : Option (Nat × Nat × Nat × Nat) :=
  match b.get? p, b.get? (p + 1), b.get? (p + 2), b.get? (p + 3) with
  | some a, some c, some d, some e => some (a, c, d, e)
  | _, _, _, _ => none

/-- The `void` rewrite of one directory entry's tag bytes
(fontService.ts lines 92-95). -/
def voidTagWrite (b : List Nat) (off : Nat) : List Nat :=
  (((b.set off 118).set (off + 1) 111).set (off + 2) 105).set (off + 3) 100

/-- The table-directory loop of `stripLayoutTables` (fontService.ts lines
79-98): for each of the `k` remaining entries read the 4 tag bytes (any
out-of-range read throws, modelled as `none`), overwrite a denylisted tag
with `void`, and advance 16 bytes. -/
def stripLoop (b : List Nat) (off : Nat) : Nat → Option (List Nat)
  | 0 => some b
  | k + 1 =>
      match tagAt b off with
      | none => none
      | some t =>
          let b' := if isLayoutTag t then voidTagWrite b off else b
          stripLoop b' (off + 16) k

/-- The fallible body of `stripLayoutTables`: read `numTables` at offset 4,
then run the directory loop from offset 12. -/
def stripTry (b : List Nat) : Option (List Nat) :=
  match getUint16? b 4 with
  | none => none
  | some numTables => stripLoop b 12 numTables

/-- `stripLayoutTables` (fontService.ts lines 67-104): work on a copy (the
model is pure, so copying is implicit); on any structural read failure the
original bytes are returned unchanged (the source's `catch`). -/
def stripLayoutTables (b : List Nat) : List Nat :=
  match stripTry b with
  | some b' => b'
  | none => b

/-- Modelled from the spec: in `createFontUrl` (fontService.ts lines
199-267) the preparation steps (table deletion, name rebuild, `post`/`OS2`/
`hhea` sync) and the library serializer `toArrayBuffer` act on parts of the
font object not otherwise modelled; the export decision logic is modelled
over the serializer's output buffer.  A thrown JS error is `Except.error`:
an empty output buffer throws "Generated font buffer is empty"
(lines 257-259), otherwise an object URL is produced from the buffer. -/
def createFontUrlCore (buffer : List Nat) (mkUrl : List Nat → String) : Except String String :=
  if buffer.length = 0 then Except.error "Generated font buffer is empty"
  else Except.ok (mkUrl buffer)

/-- The full `createFontUrl` including its `try`/`catch` (lines 201-266):
any error thrown by the body is caught and the empty string is returned. -/
def createFontUrl (buffer : List Nat) (mkUrl : List Nat → String) : String :=
  match createFontUrlCore buffer mkUrl with
  | Except.ok url => url
  | Except.error _ => ""

/-- The glyph at `i` resolves, is not the space glyph, and has a
non-degenerate path (its bounding box is determined by actual coordinates). -/
def GoodAt (f : Font) (i : Nat) : Prop :=
  ∃ g, glyphAt f i = some g ∧ isSpaceGlyph g = false ∧ pathPoints g.path ≠ []

/-- Only the character `c` is mapped to glyph index `i` by the character
map: a well-formedness hypothesis for the final-value theorems. -/
def CmapOnly (f : Font) (c : Char) (i : Nat) : Prop :=
  ∀ p ∈ f.cmap, p.2 = i → p.1 = c

/-- The rule triples of the topology phase of Method B, in table order. -/
def sousaRules (s : SpacingSettings) : List Rule :=
  TOPOLOGY.map (fun e => (e.1, some (getValue s e.1 e.2.1), some (getValue s e.1 e.2.2)))

/-! ### Concrete data used by the witness and counterexample theorems -/

/-- A command carrying a single end point: the concrete witness fonts use
pure polyline outlines. -/
def lineCmd (a b : ℚ) : PathCommand := { x := some a, y := some b }

def demoGlyphA : Glyph :=
  { name := some "A"
    unicode := some 65
    path := [lineCmd 100 0, lineCmd 400 700]
    advanceWidth := 500 }

def demoFont : Font := { glyphs := [demoGlyphA], cmap := [('A', 0)] }

def spaceGlyph : Glyph :=
  { name := some "space"
    unicode := some 32
    path := [lineCmd 10 0, lineCmd 20 30]
    advanceWidth := 250 }

def spaceFont : Font := { glyphs := [spaceGlyph], cmap := [(' ', 0)] }

def glyphM : Glyph :=
  { name := some "M"
    unicode := some 77
    path := [lineCmd 100 0, lineCmd 600 700]
    advanceWidth := 700 }

def glyphN : Glyph :=
  { name := some "N"
    unicode := some 78
    path := [lineCmd 100 0, lineCmd 600 700]
    advanceWidth := 700 }

def glyphT : Glyph :=
  { name := some "T"
    unicode := some 84
    path := [lineCmd 100 0, lineCmd 600 700]
    advanceWidth := 700 }

def fontC2 : Font := { glyphs := [glyphM, glyphN, glyphT], cmap := [('M', 0), ('N', 1), ('T', 2)] }

/-- The end-to-end master set of the spec's scenario:
`H={80,80}`, `O={70,70}`, `n={40,35}`, `o={45,45}`, no overrides. -/
def tracySettingsC2 : SpacingSettings :=
  { H := ⟨80, 80⟩, O := ⟨70, 70⟩, n := ⟨40, 35⟩, o := ⟨45, 45⟩, overrides := [] }

def glyphH3 : Glyph :=
  { name := some "H"
    unicode := some 72
    path := [lineCmd 90 0, lineCmd 510 700]
    advanceWidth := 600 }

def fontC3 : Font := { glyphs := [glyphH3], cmap := [('H', 0)] }

/-- Settings with an explicit override for the master letter `H` that
differs from every derived value. -/
def settingsC3 : SpacingSettings :=
  { H := ⟨80, 80⟩, O := ⟨70, 70⟩, n := ⟨40, 35⟩, o := ⟨45, 45⟩
    overrides := [('H', some 33, some 44)] }

def glyphA4 : Glyph :=
  { name := some "A"
    unicode := some 65
    path := [lineCmd 30 0, lineCmd 430 700]
    advanceWidth := 460 }

def glyphAacute4 : Glyph :=
  { name := some "Aacute"
    unicode := some 193
    path := [lineCmd 30 0, lineCmd 430 820]
    advanceWidth := 460 }

def fontC4 : Font := { glyphs := [glyphA4, glyphAacute4], cmap := [('A', 0), ('Á', 1)] }

/-- Masters under which Method A derives `{50, 50}` for the base letter `A`
(`valMin = max(5, round(200 * 0.25)) = 50`), with no override for `Á`. -/
def tracySettingsC4 : SpacingSettings :=
  { H := ⟨200, 200⟩, O := ⟨70, 70⟩, n := ⟨40, 35⟩, o := ⟨45, 45⟩, overrides := [] }

/-- A glyph whose original name contains a period, which the source's safe
character class `[a-zA-Z0-9._]` preserves. -/
def fontC7 : Font :=
  { glyphs := [{ name := some "one.alt", unicode := some 49, advanceWidth := 500 }], cmap := [] }

/-- The character class asserted by the claim: alphanumerics and
underscores only (no period). -/
def isAlnumUnderscore (c : Char) : Bool :=
  ('a' ≤ c && c ≤ 'z') || ('A' ≤ c && c ≤ 'Z') || ('0' ≤ c && c ≤ '9') || c == '_'

/-- An sfnt buffer with two directory entries, the first tagged `GPOS`, the
second tagged `cmap`. -/
def demoBuf : List Nat :=
  [0, 1, 0, 0, 0, 2, 0, 0, 0, 0, 0, 0,
   71, 80, 79, 83, 0, 0, 0, 0, 0, 0, 0, 44, 0, 0, 0, 4,
   99, 109, 97, 112, 0, 0, 0, 0, 0, 0, 0, 40, 0, 0, 0, 4]

/-- A stand-in for `URL.createObjectURL`. -/
def demoMkUrl : List Nat → String := fun _ => "blob:demo"

/-- Font with an empty outline for `x` and an `H` outline whose bounding
box is `(0, 0, 700, 700)`. -/
def fontC9 : Font :=
  { glyphs := [{ name := some "x", unicode := some 120, path := [], advanceWidth := 300 },
               { name := some "H"
                 unicode := some 72
                 path := [lineCmd 0 0, lineCmd 700 700]
                 advanceWidth := 800 }]
    cmap := [('x', 0), ('H', 1)] }

/-- Font whose `H` glyph has an outline but no Unicode assignment, so it is
not a real mapped glyph. -/
def fontC9b : Font :=
  { glyphs := [{ name := some "H"
                 unicode := none
                 path := [lineCmd 0 0, lineCmd 700 700]
                 advanceWidth := 800 }]
    cmap := [('H', 0)] }

/-- Font whose `e` glyph has no commands (empty path, zero box). -/
def fontC10e : Font :=
  { glyphs := [{ name := some "e", unicode := some 101, path := [], advanceWidth := 300 }]
    cmap := [('e', 0)] }

/-! ## Basic list and rounding lemmas -/

theorem listGet_lt {α : Type} : ∀ (l : List α) (i : Nat) (a : α), l.get? i = some a → i < l.length
  | [], i, a, h => by simp [List.get?] at h
  | b :: t, 0, a, _ => by simp
  | b :: t, i + 1, a, h => by
      have := listGet_lt t i a h
      simpa using Nat.succ_lt_succ this

theorem listGet_set_self {α : Type} : ∀ (l : List α) (i : Nat) (a : α), i < l.length →
    (l.set i a).get? i = some a
  | [], i, a, h => by simp at h
  | b :: t, 0, a, _ => rfl
  | b :: t, i + 1, a, h => by
      have := listGet_set_self t i a (Nat.lt_of_succ_lt_succ h)
      simpa [List.set] using this

theorem listGet_set_of_ne {α : Type} : ∀ (l : List α) (i j : Nat) (a : α), i ≠ j →
    (l.set i a).get? j = l.get? j
  | [], i, j, a, _ => rfl
  | b :: t, 0, 0, a, h => absurd rfl h
  | b :: t, 0, j + 1, a, _ => rfl
  | b :: t, i + 1, 0, a, _ => rfl
  | b :: t, i + 1, j + 1, a, h => by
      have := listGet_set_of_ne t i j a (fun hc => h (by rw [hc]))
      simpa [List.set] using this

theorem jsRound_eq_floor (q : ℚ) : jsRound q = ⌊q + 0.5⌋ := by
  unfold jsRound
  rw [Rat.floor_def', Rat.floor_def]

theorem jsRound_near (m : ℤ) (x : ℚ) (h : |x - m| ≤ 1/1000) : jsRound x = m := by
  rw [jsRound_eq_floor]
  rw [abs_le] at h
  rw [Int.floor_eq_iff]
  constructor
  · norm_num
    linarith [h.1]
  · norm_num
    linarith [h.2]

theorem jsRound_intCast (m : ℤ) : jsRound (m : ℚ) = m := by
  apply jsRound_near
  simp

/-! ## Bounding-box translation lemmas -/

theorem commandPoints_shift (s : ℚ) (c : PathCommand) :
    commandPoints (shiftCommand s c) = (commandPoints c).map (fun q => (q.1 + s, q.2)) := by
  rcases c with ⟨x, y, x1, y1, x2, y2⟩
  cases x <;> cases y <;> cases x1 <;> cases y1 <;> cases x2 <;> cases y2 <;> rfl

theorem pathPoints_cons (c : PathCommand) (p : List PathCommand) :
    pathPoints (c :: p) = commandPoints c ++ pathPoints p := rfl

theorem pathPoints_shift (s : ℚ) : ∀ (p : List PathCommand),
    pathPoints (p.map (shiftCommand s)) = (pathPoints p).map (fun q => (q.1 + s, q.2))
  | [] => rfl
  | c :: t => by
      rw [List.map_cons, pathPoints_cons, pathPoints_cons, commandPoints_shift,
        pathPoints_shift s t, List.map_append]

theorem foldl_min_fst_shift (s : ℚ) : ∀ (pts : List (ℚ × ℚ)) (a : ℚ),
    (pts.map (fun q => (q.1 + s, q.2))).foldl (fun m q => min m q.1) (a + s)
      = pts.foldl (fun m q => min m q.1) a + s
  | [], a => rfl
  | p :: t, a => by
      simp only [List.map_cons, List.foldl_cons]
      rw [min_add_add_right]
      exact foldl_min_fst_shift s t (min a p.1)

theorem foldl_max_fst_shift (s : ℚ) : ∀ (pts : List (ℚ × ℚ)) (a : ℚ),
    (pts.map (fun q => (q.1 + s, q.2))).foldl (fun m q => max m q.1) (a + s)
      = pts.foldl (fun m q => max m q.1) a + s
  | [], a => rfl
  | p :: t, a => by
      simp only [List.map_cons, List.foldl_cons]
      rw [max_add_add_right]
      exact foldl_max_fst_shift s t (max a p.1)

theorem foldl_min_snd_shift (s : ℚ) : ∀ (pts : List (ℚ × ℚ)) (b : ℚ),
    (pts.map (fun q => (q.1 + s, q.2))).foldl (fun m q => min m q.2) b
      = pts.foldl (fun m q => min m q.2) b
  | [], b => rfl
  | p :: t, b => by
      simp only [List.map_cons, List.foldl_cons]
      exact foldl_min_snd_shift s t (min b p.2)

theorem foldl_max_snd_shift (s : ℚ) : ∀ (pts : List (ℚ × ℚ)) (b : ℚ),
    (pts.map (fun q => (q.1 + s, q.2))).foldl (fun m q => max m q.2) b
      = pts.foldl (fun m q => max m q.2) b
  | [], b => rfl
  | p :: t, b => by
      simp only [List.map_cons, List.foldl_cons]
      exact foldl_max_snd_shift s t (max b p.2)

theorem pathBBox_shift (s : ℚ) (p : List PathCommand) (h : pathPoints p ≠ []) :
    pathBBox (p.map (shiftCommand s)) =
      ⟨(pathBBox p).x1 + s, (pathBBox p).y1, (pathBBox p).x2 + s, (pathBBox p).y2⟩ := by
  unfold pathBBox
  rw [pathPoints_shift]
  cases hp : pathPoints p with
  | nil => exact absurd hp h
  | cons pt pts =>
      simp only [List.map_cons, BBox.mk.injEq]
      exact ⟨foldl_min_fst_shift s pts pt.1, foldl_min_snd_shift s pts pt.2,
        foldl_max_fst_shift s pts pt.1, foldl_max_snd_shift s pts pt.2⟩

/-! ## Properties of the mutation primitive -/

theorem applySB_name (g : Glyph) (l r : Option ℚ) : (applySB g l r).name = g.name := by
  unfold applySB
  cases l <;> cases r <;> dsimp only <;> split <;> rfl

theorem applySB_unicode (g : Glyph) (l r : Option ℚ) : (applySB g l r).unicode = g.unicode := by
  unfold applySB
  cases l <;> cases r <;> dsimp only <;> split <;> rfl

theorem isSpaceGlyph_applySB (g : Glyph) (l r : Option ℚ) :
    isSpaceGlyph (applySB g l r) = isSpaceGlyph g := by
  unfold isSpaceGlyph
  rw [applySB_name, applySB_unicode]

theorem applySB_path (g : Glyph) (l r : Option ℚ) :
    (applySB g l r).path = g.path ∨ ∃ s, (applySB g l r).path = g.path.map (shiftCommand s) := by
  unfold applySB
  cases l <;> cases r <;> dsimp only
  · exact Or.inl rfl
  · exact Or.inl rfl
  · split
    · exact Or.inr ⟨_, rfl⟩
    · exact Or.inl rfl
  · split
    · exact Or.inr ⟨_, rfl⟩
    · exact Or.inl rfl

theorem applySB_points_ne (g : Glyph) (l r : Option ℚ) (h : pathPoints g.path ≠ []) :
    pathPoints (applySB g l r).path ≠ [] := by
  rcases applySB_path g l r with hp | ⟨s, hp⟩
  · rw [hp]; exact h
  · rw [hp, pathPoints_shift]
    intro hc
    exact h (List.map_eq_nil_iff.mp hc)

theorem applySB_sb (g : Glyph) (fL fR : ℚ) (h : pathPoints g.path ≠ []) :
    |lsbOf (applySB g (some fL) (some fR)) - fL| ≤ 1/1000 ∧
      rsbOf (applySB g (some fL) (some fR)) = fR := by
  unfold applySB
  dsimp only
  by_cases hs : 1/1000 < |fL - (pathBBox g.path).x1|
  · rw [if_pos hs]
    dsimp only
    unfold lsbOf rsbOf
    dsimp only
    rw [pathBBox_shift _ _ h]
    constructor
    · have : (pathBBox g.path).x1 + (fL - (pathBBox g.path).x1) - fL = 0 := by ring
      rw [this, abs_zero]
      norm_num
    · ring
  · rw [if_neg hs]
    dsimp only
    unfold lsbOf rsbOf
    dsimp only
    constructor
    · rw [abs_sub_comm]
      exact le_of_not_lt hs
    · ring

/-! ## Frame, hit and preservation lemmas for `setGlyphSB` -/

theorem setGlyphSB_cmap (f : Font) (c : Char) (l r : Option ℚ) :
    (setGlyphSB f c l r).cmap = f.cmap := by
  unfold setGlyphSB
  split
  · rfl
  · split
    · rfl
    · split
      · rfl
      · rfl

theorem charToGlyphIndex_setGlyphSB (f : Font) (c : Char) (l r : Option ℚ) (c' : Char) :
    charToGlyphIndex (setGlyphSB f c l r) c' = charToGlyphIndex f c' := by
  unfold charToGlyphIndex
  rw [setGlyphSB_cmap]

theorem setGlyphSB_frame (f : Font) (c : Char) (l r : Option ℚ) (i : Nat)
    (h : charToGlyphIndex f c ≠ some i) :
    glyphAt (setGlyphSB f c l r) i = glyphAt f i := by
  unfold setGlyphSB
  split
  · rfl
  next j hj =>
    split
    · rfl
    next g hg =>
      split
      · rfl
      · unfold glyphAt
        dsimp only
        apply listGet_set_of_ne
        intro hji
        exact h (hji ▸ hj)

theorem setGlyphSB_hit (f : Font) (c : Char) (l r : Option ℚ) (i : Nat) (g : Glyph)
    (hidx : charToGlyphIndex f c = some i) (hg : glyphAt f i = some g)
    (hsp : isSpaceGlyph g = false) :
    glyphAt (setGlyphSB f c l r) i = some (applySB g l r) := by
  unfold glyphAt at hg
  unfold setGlyphSB
  rw [hidx]
  dsimp only
  rw [hg]
  dsimp only
  rw [if_neg (by simp [hsp])]
  unfold glyphAt
  dsimp only
  exact listGet_set_self _ _ _ (listGet_lt _ _ _ hg)

theorem setGlyphSB_goodAt (f : Font) (c : Char) (l r : Option ℚ) (i : Nat)
    (h : GoodAt f i) : GoodAt (setGlyphSB f c l r) i := by
  obtain ⟨g, hg, hsp, hpts⟩ := h
  unfold glyphAt at hg
  unfold setGlyphSB
  split
  · exact ⟨g, hg, hsp, hpts⟩
  next j hj =>
    split
    · exact ⟨g, hg, hsp, hpts⟩
    next g0 hg0 =>
      split
      · exact ⟨g, hg, hsp, hpts⟩
      next hsp0 =>
        by_cases hij : j = i
        · subst hij
          have hgg : g0 = g := by
            rw [hg0] at hg
            exact Option.some.inj hg
          subst hgg
          refine ⟨applySB g0 l r, ?_, ?_, applySB_points_ne g0 l r hpts⟩
          · unfold glyphAt
            dsimp only
            exact listGet_set_self _ _ _ (listGet_lt _ _ _ hg0)
          · rw [isSpaceGlyph_applySB]
            exact hsp
        · refine ⟨g, ?_, hsp, hpts⟩
          unfold glyphAt
          dsimp only
          rw [listGet_set_of_ne _ _ _ _ hij]
          exact hg

theorem setGlyphSB_space (f : Font) (c : Char) (l r : Option ℚ) (i : Nat) (g : Glyph)
    (hidx : charToGlyphIndex f c = some i) (hg : glyphAt f i = some g)
    (hsp : isSpaceGlyph g = true) :
    setGlyphSB f c l r = f := by
  unfold glyphAt at hg
  unfold setGlyphSB
  rw [hidx]
  dsimp only
  rw [hg]
  dsimp only
  rw [if_pos hsp]

/-! ## Fold lemmas for override and rule application -/

theorem ovStep_cmap (f : Font) (r : Rule) : (ovStep f r).cmap = f.cmap :=
  setGlyphSB_cmap f r.1 r.2.1 r.2.2

theorem ovFold_cmap : ∀ (ops : List Rule) (f : Font), (ops.foldl ovStep f).cmap = f.cmap
  | [], f => rfl
  | r :: t, f => by
      rw [List.foldl_cons, ovFold_cmap t (ovStep f r), ovStep_cmap]

theorem charToGlyphIndex_ovFold (ops : List Rule) (f : Font) (c : Char) :
    charToGlyphIndex (ops.foldl ovStep f) c = charToGlyphIndex f c := by
  unfold charToGlyphIndex
  rw [ovFold_cmap]

theorem charToGlyphIndex_ovStep (f : Font) (r : Rule) (c : Char) :
    charToGlyphIndex (ovStep f r) c = charToGlyphIndex f c :=
  charToGlyphIndex_setGlyphSB f r.1 r.2.1 r.2.2 c

theorem ovFold_frame : ∀ (ops : List Rule) (f : Font) (i : Nat),
    (∀ p ∈ ops, charToGlyphIndex f p.1 ≠ some i) →
    glyphAt (ops.foldl ovStep f) i = glyphAt f i
  | [], f, i, _ => rfl
  | r :: t, f, i, h => by
      rw [List.foldl_cons]
      rw [ovFold_frame t (ovStep f r) i (by
        intro q hq
        unfold ovStep
        rw [charToGlyphIndex_setGlyphSB]
        exact h q (List.mem_cons_of_mem r hq))]
      exact setGlyphSB_frame f r.1 r.2.1 r.2.2 i (h r (List.mem_cons_self r t))

theorem ovFold_goodAt : ∀ (ops : List Rule) (f : Font) (i : Nat),
    GoodAt f i → GoodAt (ops.foldl ovStep f) i
  | [], _, _, h => h
  | r :: t, f, i, h => by
      rw [List.foldl_cons]
      exact ovFold_goodAt t (ovStep f r) i (setGlyphSB_goodAt f r.1 r.2.1 r.2.2 i h)

theorem childFold_eq (cs : List Char) (l r : Option ℚ) (f : Font) :
    cs.foldl (fun f ch => setGlyphSB f ch l r) f
      = (cs.map (fun ch => ((ch, l, r) : Rule))).foldl ovStep f := by
  induction cs generalizing f with
  | nil => rfl
  | cons c t ih =>
      rw [List.map_cons, List.foldl_cons, List.foldl_cons]
      exact ih (setGlyphSB f c l r)

theorem applyRule_eq_ovFold (f : Font) (c : Char) (l r : Option ℚ) :
    applyRule f c l r
      = (((c :: diacriticsOf c).map (fun ch => ((ch, l, r) : Rule)))).foldl ovStep f := by
  unfold applyRule
  rw [childFold_eq, List.map_cons, List.foldl_cons]
  rfl

theorem ruleStep_cmap (f : Font) (r : Rule) : (ruleStep f r).cmap = f.cmap := by
  unfold ruleStep
  rw [applyRule_eq_ovFold, ovFold_cmap]

theorem ruleFold_cmap : ∀ (rules : List Rule) (f : Font),
    (rules.foldl ruleStep f).cmap = f.cmap
  | [], f => rfl
  | r :: t, f => by
      rw [List.foldl_cons, ruleFold_cmap t (ruleStep f r), ruleStep_cmap]

theorem charToGlyphIndex_ruleFold (rules : List Rule) (f : Font) (c : Char) :
    charToGlyphIndex (rules.foldl ruleStep f) c = charToGlyphIndex f c := by
  unfold charToGlyphIndex
  rw [ruleFold_cmap]

theorem charToGlyphIndex_ruleStep (f : Font) (r : Rule) (c : Char) :
    charToGlyphIndex (ruleStep f r) c = charToGlyphIndex f c := by
  unfold charToGlyphIndex
  rw [ruleStep_cmap]

theorem ruleStep_frame (f : Font) (r : Rule) (i : Nat)
    (h : ∀ ch ∈ r.1 :: diacriticsOf r.1, charToGlyphIndex f ch ≠ some i) :
    glyphAt (ruleStep f r) i = glyphAt f i := by
  unfold ruleStep
  rw [applyRule_eq_ovFold]
  apply ovFold_frame
  intro p hp
  obtain ⟨ch, hch, rfl⟩ := List.mem_map.mp hp
  exact h ch hch

theorem ruleStep_goodAt (f : Font) (r : Rule) (i : Nat) (h : GoodAt f i) :
    GoodAt (ruleStep f r) i := by
  unfold ruleStep
  rw [applyRule_eq_ovFold]
  exact ovFold_goodAt _ f i h

theorem ruleFold_frame : ∀ (rules : List Rule) (f : Font) (i : Nat),
    (∀ rl ∈ rules, ∀ ch ∈ rl.1 :: diacriticsOf rl.1, charToGlyphIndex f ch ≠ some i) →
    glyphAt (rules.foldl ruleStep f) i = glyphAt f i
  | [], f, i, _ => rfl
  | r :: t, f, i, h => by
      rw [List.foldl_cons]
      rw [ruleFold_frame t (ruleStep f r) i (by
        intro rl hrl ch hch
        unfold ruleStep
        rw [applyRule_eq_ovFold, charToGlyphIndex_ovFold]
        exact h rl (List.mem_cons_of_mem r hrl) ch hch)]
      exact ruleStep_frame f r i (h r (List.mem_cons_self r t))

theorem ruleFold_goodAt : ∀ (rules : List Rule) (f : Font) (i : Nat),
    GoodAt f i → GoodAt (rules.foldl ruleStep f) i
  | [], _, _, h => h
  | r :: t, f, i, h => by
      rw [List.foldl_cons]
      exact ruleFold_goodAt t (ruleStep f r) i (ruleStep_goodAt f r i h)

/-- The last `setGlyphSB` targeting glyph `i` in an override-style fold
determines its final side bearings. -/
theorem ovFold_final (pre post : List Rule) (X : Char) (fL fR : ℚ) (f : Font) (i : Nat)
    (hidx : charToGlyphIndex f X = some i)
    (hgood : GoodAt f i)
    (hpost : ∀ p ∈ post, charToGlyphIndex f p.1 ≠ some i) :
    ∃ g', glyphAt ((pre ++ (X, some fL, some fR) :: post).foldl ovStep f) i = some g' ∧
      isSpaceGlyph g' = false ∧ pathPoints g'.path ≠ [] ∧
      |lsbOf g' - fL| ≤ 1/1000 ∧ rsbOf g' = fR := by
  rw [List.foldl_append, List.foldl_cons]
  obtain ⟨g1, hg1at, hg1sp, hg1pts⟩ := ovFold_goodAt pre f i hgood
  have hidx1 : charToGlyphIndex (pre.foldl ovStep f) X = some i := by
    rw [charToGlyphIndex_ovFold]
    exact hidx
  have hhit : glyphAt (ovStep (pre.foldl ovStep f) (X, some fL, some fR)) i
      = some (applySB g1 (some fL) (some fR)) :=
    setGlyphSB_hit _ X (some fL) (some fR) i g1 hidx1 hg1at hg1sp
  have hframe : glyphAt (post.foldl ovStep (ovStep (pre.foldl ovStep f) (X, some fL, some fR))) i
      = glyphAt (ovStep (pre.foldl ovStep f) (X, some fL, some fR)) i := by
    apply ovFold_frame
    intro p hp
    rw [charToGlyphIndex_ovStep, charToGlyphIndex_ovFold]
    exact hpost p hp
  obtain ⟨habs, hrsb⟩ := applySB_sb g1 fL fR hg1pts
  refine ⟨applySB g1 (some fL) (some fR), ?_, ?_, ?_, habs, hrsb⟩
  · rw [hframe, hhit]
  · rw [isSpaceGlyph_applySB]
    exact hg1sp
  · exact applySB_points_ne g1 _ _ hg1pts

/-- Applying one rule whose base character is `X` updates `X`'s glyph by
`applySB`, provided no diacritic of `X` resolves to the same glyph. -/
theorem ruleStep_hit (f : Font) (X : Char) (l r : Option ℚ) (i : Nat) (g : Glyph)
    (hidx : charToGlyphIndex f X = some i) (hg : glyphAt f i = some g)
    (hsp : isSpaceGlyph g = false)
    (hXchild : ∀ ch ∈ diacriticsOf X, charToGlyphIndex f ch ≠ some i) :
    glyphAt (ruleStep f (X, l, r)) i = some (applySB g l r) := by
  unfold ruleStep
  rw [applyRule_eq_ovFold, List.map_cons, List.foldl_cons]
  dsimp only
  have hbase : glyphAt (ovStep f (X, l, r)) i = some (applySB g l r) :=
    setGlyphSB_hit f X l r i g hidx hg hsp
  rw [ovFold_frame _ _ i (by
    intro p hp
    obtain ⟨ch, hch, rfl⟩ := List.mem_map.mp hp
    dsimp only
    rw [charToGlyphIndex_ovStep]
    exact hXchild ch hch)]
  exact hbase

/-- The last rule targeting `X` in a rule-sequence fold determines the final
side bearings of `X`'s glyph, provided no later rule (base or diacritic
propagation) and no diacritic of `X` itself touches that glyph. -/
theorem ruleFold_final (pre post : List Rule) (X : Char) (fL fR : ℚ) (f : Font) (i : Nat)
    (hidx : charToGlyphIndex f X = some i)
    (hgood : GoodAt f i)
    (hXchild : ∀ ch ∈ diacriticsOf X, charToGlyphIndex f ch ≠ some i)
    (hpost : ∀ rl ∈ post, ∀ ch ∈ rl.1 :: diacriticsOf rl.1, charToGlyphIndex f ch ≠ some i) :
    ∃ g', glyphAt ((pre ++ (X, some fL, some fR) :: post).foldl ruleStep f) i = some g' ∧
      isSpaceGlyph g' = false ∧ pathPoints g'.path ≠ [] ∧
      |lsbOf g' - fL| ≤ 1/1000 ∧ rsbOf g' = fR := by
  rw [List.foldl_append, List.foldl_cons]
  obtain ⟨g1, hg1at, hg1sp, hg1pts⟩ := ruleFold_goodAt pre f i hgood
  have hidx1 : charToGlyphIndex (pre.foldl ruleStep f) X = some i := by
    rw [charToGlyphIndex_ruleFold]
    exact hidx
  have hhit : glyphAt (ruleStep (pre.foldl ruleStep f) (X, some fL, some fR)) i
      = some (applySB g1 (some fL) (some fR)) := by
    apply ruleStep_hit _ X _ _ i g1 hidx1 hg1at hg1sp
    intro ch hch
    rw [charToGlyphIndex_ruleFold]
    exact hXchild ch hch
  have hframe : glyphAt (post.foldl ruleStep (ruleStep (pre.foldl ruleStep f) (X, some fL, some fR))) i
      = glyphAt (ruleStep (pre.foldl ruleStep f) (X, some fL, some fR)) i := by
    apply ruleFold_frame
    intro rl hrl ch hch
    rw [charToGlyphIndex_ruleStep, charToGlyphIndex_ruleFold]
    exact hpost rl hrl ch hch
  obtain ⟨habs, hrsb⟩ := applySB_sb g1 fL fR hg1pts
  refine ⟨applySB g1 (some fL) (some fR), ?_, ?_, ?_, habs, hrsb⟩
  · rw [hframe, hhit]
  · rw [isSpaceGlyph_applySB]
    exact hg1sp
  · exact applySB_points_ne g1 _ _ hg1pts

/-! ## From cmap well-formedness to per-character frame conditions -/

theorem lookupChar_mem : ∀ (m : List (Char × Nat)) (c : Char) (v : Nat),
    lookupChar m c = some v → (c, v) ∈ m
  | [], c, v, h => by simp [lookupChar] at h
  | p :: t, c, v, h => by
      unfold lookupChar at h
      split at h
      next heq =>
        have hv : p.2 = v := Option.some.inj h
        have : p = (c, v) := by
          rcases p with ⟨a, b⟩
          simp only at heq hv
          rw [heq, hv]
        rw [← this]
        exact List.mem_cons_self p t
      next =>
        exact List.mem_cons_of_mem p (lookupChar_mem t c v h)

theorem cmapOnly_ne (f : Font) (X : Char) (i : Nat) (h : CmapOnly f X i)
    (ch : Char) (hne : ch ≠ X) : charToGlyphIndex f ch ≠ some i := by
  intro hc
  unfold charToGlyphIndex at hc
  exact hne (h (ch, i) (lookupChar_mem f.cmap ch i hc) rfl)

/-! ## Reading final metrics back through `getCharMetrics` -/

theorem pathPoints_nil_of_path_nil (g : Glyph) (h : g.path = []) : pathPoints g.path = [] := by
  rw [h]
  rfl

theorem getCharMetrics_of_glyph (f : Font) (c : Char) (i : Nat) (g : Glyph) (lz rz : ℤ)
    (hidx : charToGlyphIndex f c = some i) (hg : glyphAt f i = some g)
    (hpts : pathPoints g.path ≠ [])
    (hl : |lsbOf g - (lz : ℚ)| ≤ 1/1000) (hr : rsbOf g = (rz : ℚ)) :
    getCharMetrics f c = ((lz : ℚ), (rz : ℚ)) := by
  unfold getCharMetrics charToGlyph
  rw [hidx]
  dsimp only [Option.bind]
  rw [hg]
  dsimp only
  have hpath : g.path ≠ [] := fun hnil => hpts (pathPoints_nil_of_path_nil g hnil)
  rw [if_neg (fun hcond => hpath hcond.2.2.2.2)]
  have h1 : jsRound (pathBBox g.path).x1 = lz := by
    apply jsRound_near
    unfold lsbOf at hl
    exact hl
  have h2 : jsRound (g.advanceWidth - (pathBBox g.path).x2) = rz := by
    unfold rsbOf at hr
    rw [hr]
    exact jsRound_intCast rz
  rw [h1, h2]

/-! ## Algorithm-level final-value lemmas -/

theorem applyTracy_final_rule (f : Font) (s : SpacingSettings) (X : Char) (i : Nat)
    (fL fR : ℚ) (pre post : List Rule)
    (hdec : tracyRules s = pre ++ (X, some fL, some fR) :: post)
    (hidx : charToGlyphIndex f X = some i)
    (hgood : GoodAt f i)
    (hXchild : ∀ ch ∈ diacriticsOf X, charToGlyphIndex f ch ≠ some i)
    (hpost : ∀ rl ∈ post, ∀ ch ∈ rl.1 :: diacriticsOf rl.1, charToGlyphIndex f ch ≠ some i)
    (hov : ∀ p ∈ s.overrides, charToGlyphIndex f p.1 ≠ some i) :
    ∃ g', glyphAt (applyTracyMethod f s) i = some g' ∧ isSpaceGlyph g' = false ∧
      pathPoints g'.path ≠ [] ∧ |lsbOf g' - fL| ≤ 1/1000 ∧ rsbOf g' = fR := by
  unfold applyTracyMethod
  rw [hdec]
  obtain ⟨g', hat, hsp, hpts, habs, hrsb⟩ :=
    ruleFold_final pre post X fL fR f i hidx hgood hXchild hpost
  refine ⟨g', ?_, hsp, hpts, habs, hrsb⟩
  rw [ovFold_frame _ _ i (by
    intro p hp
    rw [charToGlyphIndex_ruleFold]
    exact hov p hp)]
  exact hat

theorem applyTracy_final_override (f : Font) (s : SpacingSettings) (X : Char) (i : Nat)
    (fL fR : ℚ) (opre opost : List Rule)
    (hdec : s.overrides = opre ++ (X, some fL, some fR) :: opost)
    (hidx : charToGlyphIndex f X = some i)
    (hgood : GoodAt f i)
    (hpost : ∀ p ∈ opost, charToGlyphIndex f p.1 ≠ some i) :
    ∃ g', glyphAt (applyTracyMethod f s) i = some g' ∧ isSpaceGlyph g' = false ∧
      pathPoints g'.path ≠ [] ∧ |lsbOf g' - fL| ≤ 1/1000 ∧ rsbOf g' = fR := by
  unfold applyTracyMethod
  rw [hdec]
  apply ovFold_final
  · rw [charToGlyphIndex_ruleFold]
    exact hidx
  · exact ruleFold_goodAt _ f i hgood
  · intro p hp
    rw [charToGlyphIndex_ruleFold]
    exact hpost p hp

theorem sousaFold_eq (s : SpacingSettings) (f : Font) :
    TOPOLOGY.foldl (fun f e =>
        applyRule f e.1 (some (getValue s e.1 e.2.1)) (some (getValue s e.1 e.2.2))) f
      = (sousaRules s).foldl ruleStep f := by
  unfold sousaRules
  rw [List.foldl_map]
  rfl

theorem setMasterSafe_cmap (ov : List (Char × Option ℚ × Option ℚ)) (f : Font) (c : Char)
    (v : SBPair) : (setMasterSafe ov f c v).cmap = f.cmap := by
  unfold setMasterSafe
  split
  · rfl
  · rw [setGlyphSB_cmap]

theorem setMasterSafe_glyphAt (ov : List (Char × Option ℚ × Option ℚ)) (f : Font) (c : Char)
    (v : SBPair) (i : Nat)
    (h : (ovLookup ov c).isSome = true ∨ charToGlyphIndex f c ≠ some i) :
    glyphAt (setMasterSafe ov f c v) i = glyphAt f i := by
  unfold setMasterSafe
  by_cases hb : (ovLookup ov c).isSome
  · rw [if_pos hb]
  · rw [if_neg hb]
    rcases h with h | h
    · exact absurd h hb
    · exact setGlyphSB_frame f c _ _ i h

theorem ovLookup_append_self (opre opost : List (Char × Option ℚ × Option ℚ)) (X : Char)
    (v : Option ℚ × Option ℚ) :
    (ovLookup (opre ++ (X, v) :: opost) X).isSome = true := by
  induction opre with
  | nil =>
      simp [ovLookup]
  | cons p t ih =>
      rw [List.cons_append]
      unfold ovLookup
      split
      · rfl
      · exact ih

theorem applySousa_final_override (f : Font) (s : SpacingSettings) (X : Char) (i : Nat)
    (fL fR : ℚ) (opre opost : List Rule)
    (hdec : s.overrides = opre ++ (X, some fL, some fR) :: opost)
    (hOnly : CmapOnly f X i)
    (hidx : charToGlyphIndex f X = some i)
    (hgood : GoodAt f i)
    (hpost : ∀ p ∈ opost, charToGlyphIndex f p.1 ≠ some i) :
    ∃ g', glyphAt (applySousaMethod f s) i = some g' ∧ isSpaceGlyph g' = false ∧
      pathPoints g'.path ≠ [] ∧ |lsbOf g' - fL| ≤ 1/1000 ∧ rsbOf g' = fR := by
  unfold applySousaMethod
  dsimp only
  rw [sousaFold_eq]
  set f1 := (sousaRules s).foldl ruleStep f with hf1
  set f2 := s.overrides.foldl ovStep f1 with hf2
  have hcm1 : f1.cmap = f.cmap := ruleFold_cmap _ f
  have hcm2 : f2.cmap = f.cmap := by rw [hf2, ovFold_cmap, hcm1]
  have hmaster : ∀ (fz : Font) (m : Char) (v : SBPair), fz.cmap = f.cmap →
      glyphAt (setMasterSafe s.overrides fz m v) i = glyphAt fz i := by
    intro fz m v hcm
    apply setMasterSafe_glyphAt
    by_cases hxm : X = m
    · left
      rw [hdec, ← hxm]
      exact ovLookup_append_self opre opost X (some fL, some fR)
    · right
      have hidxm : charToGlyphIndex fz m = charToGlyphIndex f m := by
        unfold charToGlyphIndex
        rw [hcm]
      rw [hidxm]
      exact cmapOnly_ne f X i hOnly m (fun h => hxm h.symm)
  have hcm3 : (setMasterSafe s.overrides f2 'n' s.n).cmap = f.cmap := by
    rw [setMasterSafe_cmap, hcm2]
  have hcm4 : (setMasterSafe s.overrides (setMasterSafe s.overrides f2 'n' s.n) 'o' s.o).cmap
      = f.cmap := by
    rw [setMasterSafe_cmap, hcm3]
  have hcm5 : (setMasterSafe s.overrides (setMasterSafe s.overrides
      (setMasterSafe s.overrides f2 'n' s.n) 'o' s.o) 'H' s.H).cmap = f.cmap := by
    rw [setMasterSafe_cmap, hcm4]
  rw [hmaster _ 'O' s.O hcm5, hmaster _ 'H' s.H hcm4, hmaster _ 'o' s.o hcm3,
    hmaster _ 'n' s.n hcm2]
  rw [hf2, hdec]
  apply ovFold_final
  · rw [charToGlyphIndex_ruleFold]
    exact hidx
  · exact ruleFold_goodAt _ f i hgood
  · intro p hp
    rw [charToGlyphIndex_ruleFold]
    exact hpost p hp

theorem applyRule_child_final (f : Font) (c ch : Char) (fL fR : ℚ) (i : Nat)
    (cpre cpost : List Char)
    (hsplit : diacriticsOf c = cpre ++ ch :: cpost)
    (hnot : ∀ x ∈ cpost, x ≠ ch)
    (hOnly : CmapOnly f ch i)
    (hidx : charToGlyphIndex f ch = some i)
    (hgood : GoodAt f i) :
    ∃ g', glyphAt (applyRule f c (some fL) (some fR)) i = some g' ∧
      isSpaceGlyph g' = false ∧ pathPoints g'.path ≠ [] ∧
      |lsbOf g' - fL| ≤ 1/1000 ∧ rsbOf g' = fR := by
  rw [applyRule_eq_ovFold, hsplit, List.map_cons, List.map_append, List.map_cons]
  rw [show ((c, some fL, some fR) :: ((cpre.map fun x => ((x, some fL, some fR) : Rule)) ++
      (ch, some fL, some fR) :: (cpost.map fun x => ((x, some fL, some fR) : Rule))))
    = ((c, some fL, some fR) :: cpre.map fun x => ((x, some fL, some fR) : Rule)) ++
      (ch, some fL, some fR) :: (cpost.map fun x => ((x, some fL, some fR) : Rule)) from rfl]
  apply ovFold_final
  · exact hidx
  · exact hgood
  · intro p hp
    obtain ⟨x, hx, rfl⟩ := List.mem_map.mp hp
    exact cmapOnly_ne f ch i hOnly x (hnot x hx)

/-! ## Sanitizer loop invariants -/

theorem listGet_isSome {α : Type} : ∀ (l : List α) (i : Nat), i < l.length →
    ∃ a, l.get? i = some a
  | [], i, h => absurd h (by simp)
  | a :: t, 0, _ => ⟨a, rfl⟩
  | a :: t, i + 1, h => listGet_isSome t i (Nat.lt_of_succ_lt_succ h)

theorem voidTagWrite_length (b : List Nat) (off : Nat) :
    (voidTagWrite b off).length = b.length := by
  simp [voidTagWrite]

theorem voidTagWrite_get_out (b : List Nat) (off idx : Nat)
    (h : idx < off ∨ off + 4 ≤ idx) :
    (voidTagWrite b off).get? idx = b.get? idx := by
  unfold voidTagWrite
  rw [listGet_set_of_ne _ _ _ _ (by omega), listGet_set_of_ne _ _ _ _ (by omega),
    listGet_set_of_ne _ _ _ _ (by omega), listGet_set_of_ne _ _ _ _ (by omega)]

theorem voidTagWrite_tagAt (b : List Nat) (off : Nat) (h : off + 3 < b.length) :
    tagAt (voidTagWrite b off) off = some voidTagBytes := by
  have e0 : (voidTagWrite b off).get? off = some 118 := by
    unfold voidTagWrite
    rw [listGet_set_of_ne _ _ _ _ (by omega), listGet_set_of_ne _ _ _ _ (by omega),
      listGet_set_of_ne _ _ _ _ (by omega)]
    exact listGet_set_self b off 118 (by omega)
  have e1 : (voidTagWrite b off).get? (off + 1) = some 111 := by
    unfold voidTagWrite
    rw [listGet_set_of_ne _ _ _ _ (by omega), listGet_set_of_ne _ _ _ _ (by omega)]
    exact listGet_set_self _ _ _ (by simp; omega)
  have e2 : (voidTagWrite b off).get? (off + 2) = some 105 := by
    unfold voidTagWrite
    rw [listGet_set_of_ne _ _ _ _ (by omega)]
    exact listGet_set_self _ _ _ (by simp; omega)
  have e3 : (voidTagWrite b off).get? (off + 3) = some 100 := by
    unfold voidTagWrite
    exact listGet_set_self _ _ _ (by simp; omega)
  unfold tagAt
  rw [e0, e1, e2, e3]
  rfl

theorem tagAt_some_of_lt (b : List Nat) (off : Nat) (h : off + 3 < b.length) :
    ∃ t, tagAt b off = some t := by
  obtain ⟨a0, h0⟩ := listGet_isSome b off (by omega)
  obtain ⟨a1, h1⟩ := listGet_isSome b (off + 1) (by omega)
  obtain ⟨a2, h2⟩ := listGet_isSome b (off + 2) (by omega)
  obtain ⟨a3, h3⟩ := listGet_isSome b (off + 3) (by omega)
  refine ⟨(a0, a1, a2, a3), ?_⟩
  unfold tagAt
  rw [h0, h1, h2, h3]

theorem tagAt_congr (b b' : List Nat) (p : Nat)
    (h0 : b'.get? p = b.get? p) (h1 : b'.get? (p + 1) = b.get? (p + 1))
    (h2 : b'.get? (p + 2) = b.get? (p + 2)) (h3 : b'.get? (p + 3) = b.get? (p + 3)) :
    tagAt b' p = tagAt b p := by
  unfold tagAt
  rw [h0, h1, h2, h3]

theorem stripLoop_spec : ∀ (k : Nat) (b : List Nat) (off : Nat), off + 16 * k ≤ b.length →
    ∃ b', stripLoop b off k = some b' ∧
      b'.length = b.length ∧
      (∀ j, j < k → tagAt b' (off + 16 * j) = (tagAt b (off + 16 * j)).map voidify) ∧
      (∀ idx, (∀ j, j < k → idx < off + 16 * j ∨ off + 16 * j + 4 ≤ idx) →
        b'.get? idx = b.get? idx)
  | 0, b, off, _ => by
      refine ⟨b, rfl, rfl, ?_, ?_⟩
      · intro j hj
        omega
      · intro idx _
        rfl
  | k + 1, b, off, hlen => by
      obtain ⟨t, htag⟩ := tagAt_some_of_lt b off (by omega)
      have hstep : stripLoop b off (k + 1)
          = stripLoop (if isLayoutTag t then voidTagWrite b off else b) (off + 16) k := by
        rw [stripLoop, htag]
      set b1 : List Nat := if isLayoutTag t then voidTagWrite b off else b with hb1
      have hlen1 : b1.length = b.length := by
        rw [hb1]
        split
        · exact voidTagWrite_length b off
        · rfl
      have hout1 : ∀ idx, idx < off ∨ off + 4 ≤ idx → b1.get? idx = b.get? idx := by
        intro idx hidx
        rw [hb1]
        split
        · exact voidTagWrite_get_out b off idx hidx
        · rfl
      have htag1 : tagAt b1 off = (tagAt b off).map voidify := by
        rw [hb1, htag]
        simp only [Option.map_some']
        split
        next hL =>
          rw [voidTagWrite_tagAt b off (by omega)]
          simp [voidify, hL]
        next hL =>
          rw [htag]
          simp [voidify, hL]
      obtain ⟨b', hloop, hlen', htags', hpres'⟩ :=
        stripLoop_spec k b1 (off + 16) (by rw [hlen1]; omega)
      refine ⟨b', by rw [hstep]; exact hloop, by rw [hlen', hlen1], ?_, ?_⟩
      · intro j hj
        cases j with
        | zero =>
            have e0 : b'.get? off = b1.get? off :=
              hpres' off (fun j' hj' => Or.inl (by omega))
            have e1 : b'.get? (off + 1) = b1.get? (off + 1) :=
              hpres' (off + 1) (fun j' hj' => Or.inl (by omega))
            have e2 : b'.get? (off + 2) = b1.get? (off + 2) :=
              hpres' (off + 2) (fun j' hj' => Or.inl (by omega))
            have e3 : b'.get? (off + 3) = b1.get? (off + 3) :=
              hpres' (off + 3) (fun j' hj' => Or.inl (by omega))
            have : tagAt b' off = tagAt b1 off := tagAt_congr b1 b' off e0 e1 e2 e3
            simpa using this.trans htag1
        | succ j' =>
            have harith : off + 16 * (j' + 1) = (off + 16) + 16 * j' := by ring
            have htagb1 : tagAt b1 ((off + 16) + 16 * j') = tagAt b ((off + 16) + 16 * j') := by
              apply tagAt_congr
              · exact hout1 _ (by omega)
              · exact hout1 _ (by omega)
              · exact hout1 _ (by omega)
              · exact hout1 _ (by omega)
            rw [harith, htags' j' (Nat.lt_of_succ_lt_succ hj), htagb1]
      · intro idx hidx
        have hb'b1 : b'.get? idx = b1.get? idx := by
          apply hpres'
          intro j' hj'
          have := hidx (j' + 1) (Nat.succ_lt_succ hj')
          omega
        rw [hb'b1]
        apply hout1
        have := hidx 0 (Nat.succ_pos k)
        omega

/-! ## Name-sanitization lemmas -/

theorem ensureLoop_get : ∀ (gl : List Glyph) (k i : Nat),
    (ensureLoop k gl).get? i = (gl.get? i).map (fun g => ensureGlyphName (k + i) g)
  | [], k, i => by simp [ensureLoop]
  | g :: t, k, 0 => by simp [ensureLoop]
  | g :: t, k, i + 1 => by
      have := ensureLoop_get t (k + 1) i
      simp only [ensureLoop, List.get?]
      rw [this]
      have : k + 1 + i = k + (i + 1) := by omega
      rw [this]

theorem sanitizeName_length (s : String) : (sanitizeName s).length = s.length := by
  unfold sanitizeName
  show (s.data.map (fun c => if isSafeChar c then c else '_')).length = s.data.length
  rw [List.length_map]

theorem sanitizeName_all_safe (s : String) :
    (sanitizeName s).data.all isSafeChar = true := by
  unfold sanitizeName
  show (s.data.map _).all isSafeChar = true
  rw [List.all_map]
  rw [List.all_eq_true]
  intro c _
  dsimp only [Function.comp]
  by_cases h : isSafeChar c
  · rw [if_pos h]
    exact h
  · rw [if_neg h]
    decide

theorem uniHexName_length_ne (u : Nat) : (uniHexName u).length ≠ 0 := by
  unfold uniHexName
  have h3 : ("uni" : String).length = 3 := rfl
  rw [String.length_append, h3]
  omega

theorem gidName_length_ne (i : Nat) : (gidName i).length ≠ 0 := by
  unfold gidName
  have h3 : ("gid" : String).length = 3 := rfl
  rw [String.length_append, h3]
  omega

theorem length_ne_of_trim (s : String) (h : ¬(jsTrim s).isEmpty = true) : s.length ≠ 0 := by
  intro hc
  apply h
  have hdata : s.data = [] := List.length_eq_zero.mp hc
  have hs : s = "" := by
    cases s
    simp only [String.data] at hdata
    rw [hdata]
  rw [hs]
  decide

theorem ensureGlyphName_spec (i : Nat) (g : Glyph) :
    ∃ s, (ensureGlyphName i g).name = some s ∧ s.length ≠ 0 ∧ s.data.all isSafeChar = true := by
  unfold ensureGlyphName
  dsimp only
  set assigned : String :=
    match g.name with
    | none => if uniTruthy g.unicode then uniHexName (g.unicode.getD 0) else gidName i
    | some s =>
        if (jsTrim s).isEmpty then
          (if uniTruthy g.unicode then uniHexName (g.unicode.getD 0) else gidName i)
        else s
    with hassigned
  have hlen : assigned.length ≠ 0 := by
    rw [hassigned]
    cases hn : g.name with
    | none =>
        dsimp only
        split
        · exact uniHexName_length_ne _
        · exact gidName_length_ne _
    | some s =>
        dsimp only
        split
        · split
          · exact uniHexName_length_ne _
          · exact gidName_length_ne _
        next hne => exact length_ne_of_trim s hne
  have hsane : (sanitizeName assigned).length ≠ 0 := by
    rw [sanitizeName_length]
    exact hlen
  rw [if_neg hsane]
  exact ⟨sanitizeName assigned, rfl, hsane, sanitizeName_all_safe assigned⟩

/-! ## The claims -/

/-- C1: for every glyph with a non-degenerate path (its bounding box is
determined by actual path coordinates; the rational model has no NaN) that
does not resolve to the space character, after `setGlyphSB(font, char, L, R)`
with both targets non-null, the recomputed left side bearing (bounding-box
`x1`) equals `L` and the recomputed right side bearing
(`advanceWidth - x2`) equals `R`, each within 1 unit of rounding. -/
theorem C1_setGlyphSB_postcondition (f : Font) (c : Char) (L R : ℚ) (i : Nat) (g : Glyph)
    (hidx : charToGlyphIndex f c = some i) (hg : glyphAt f i = some g)
    (hsp : isSpaceGlyph g = false) (hnd : pathPoints g.path ≠ []) :
    ∃ g', glyphAt (setGlyphSB f c (some L) (some R)) i = some g' ∧
      |lsbOf g' - L| ≤ 1 ∧ |rsbOf g' - R| ≤ 1 := by
  obtain ⟨habs, hrsb⟩ := applySB_sb g L R hnd
  refine ⟨applySB g (some L) (some R),
    setGlyphSB_hit f c (some L) (some R) i g hidx hg hsp, ?_, ?_⟩
  · exact habs.trans (by norm_num)
  · rw [hrsb]
    simp

/-- C1 witness: the 'A' glyph of the demo font is retargeted to
`lsb = 50`, `rsb = 60`. -/
theorem C1_witness :
    ∃ g', glyphAt (setGlyphSB demoFont 'A' (some 50) (some 60)) 0 = some g' ∧
      |lsbOf g' - 50| ≤ 1 ∧ |rsbOf g' - 60| ≤ 1 :=
  C1_setGlyphSB_postcondition demoFont 'A' 50 60 0 demoGlyphA
    (by with_unfolding_all decide) (by with_unfolding_all decide)
    (by with_unfolding_all decide) (by with_unfolding_all decide)

/-- C5: for every pair of targets (null included), `setGlyphSB` on a glyph
resolving to the space character leaves the whole font — in particular that
glyph's advance width and every path command coordinate — unchanged. -/
theorem C5_space_immunity (f : Font) (c : Char) (l r : Option ℚ) (i : Nat) (g : Glyph)
    (hidx : charToGlyphIndex f c = some i) (hg : glyphAt f i = some g)
    (hsp : isSpaceGlyph g = true) :
    setGlyphSB f c l r = f ∧
      ∃ g', glyphAt (setGlyphSB f c l r) i = some g' ∧
        g'.advanceWidth = g.advanceWidth ∧ g'.path = g.path := by
  have heq := setGlyphSB_space f c l r i g hidx hg hsp
  exact ⟨heq, g, by rw [heq]; exact hg, rfl, rfl⟩

/-- C5 witness: a space glyph is untouched by targets `(50, 60)`. -/
theorem C5_witness :
    setGlyphSB spaceFont ' ' (some 50) (some 60) = spaceFont ∧
      ∃ g', glyphAt (setGlyphSB spaceFont ' ' (some 50) (some 60)) 0 = some g' ∧
        g'.advanceWidth = spaceGlyph.advanceWidth ∧ g'.path = spaceGlyph.path :=
  C5_space_immunity spaceFont ' ' (some 50) (some 60) 0 spaceGlyph
    (by with_unfolding_all decide) (by with_unfolding_all decide)
    (by with_unfolding_all decide)

/-- C10: the per-character metrics query is a total function of the model
(it never throws): an unresolved character yields `{lsb: 0, rsb: 0}`; a
glyph with no commands (whose box is then all-zero) yields
`{lsb: 0, rsb: advanceWidth}`; otherwise the rounded box-derived pair
`{lsb: round x1, rsb: round (advanceWidth - x2)}`. -/
theorem C10_getCharMetrics_total (f : Font) (c : Char) :
    (charToGlyph f c = none → getCharMetrics f c = (0, 0)) ∧
    (∀ g, charToGlyph f c = some g → g.path = [] →
      getCharMetrics f c = (0, g.advanceWidth)) ∧
    (∀ g, charToGlyph f c = some g →
      ¬((pathBBox g.path).x1 = 0 ∧ (pathBBox g.path).x2 = 0 ∧ (pathBBox g.path).y1 = 0 ∧
        (pathBBox g.path).y2 = 0 ∧ g.path = []) →
      getCharMetrics f c = (((jsRound (pathBBox g.path).x1 : ℤ) : ℚ),
        ((jsRound (g.advanceWidth - (pathBBox g.path).x2) : ℤ) : ℚ))) := by
  refine ⟨?_, ?_, ?_⟩
  · intro h
    unfold getCharMetrics
    rw [h]
  · intro g h hpath
    unfold getCharMetrics
    rw [h]
    dsimp only
    rw [if_pos]
    rw [hpath]
    exact ⟨rfl, rfl, rfl, rfl, rfl⟩
  · intro g h hcond
    unfold getCharMetrics
    rw [h]
    dsimp only
    rw [if_neg hcond]

/-- C10 witness: the three branches at concrete inputs — an unmapped
character, an empty glyph, and the demo 'A' glyph. -/
theorem C10_witness :
    getCharMetrics demoFont 'Z' = (0, 0) ∧
    getCharMetrics fontC10e 'e' = (0, 300) ∧
    getCharMetrics demoFont 'A' = (100, 100) := by
  refine ⟨?_, ?_, ?_⟩
  · exact (C10_getCharMetrics_total demoFont 'Z').1 (by with_unfolding_all decide)
  · have h := (C10_getCharMetrics_total fontC10e 'e').2.1
      { name := some "e", unicode := some 101, path := [], advanceWidth := 300 }
      (by with_unfolding_all decide) (by with_unfolding_all decide)
    rw [h]
  · have h := (C10_getCharMetrics_total demoFont 'A').2.2 demoGlyphA
      (by with_unfolding_all decide) (by with_unfolding_all decide)
    rw [h]
    with_unfolding_all decide

theorem createMetrics_xHeight (f : Font) :
    (createMetrics f).xHeight =
      (match charToGlyph f 'x' with
       | some g =>
           if uniTruthy g.unicode then (pathBBox g.path).y2 - (pathBBox g.path).y1 else 0
       | none => 0) := by
  unfold createMetrics
  dsimp only
  cases charToGlyph f 'H' with
  | none =>
      cases charToGlyph f 'x' with
      | none => rfl
      | some gx =>
          dsimp only
          split <;> rfl
  | some gH =>
      cases charToGlyph f 'x' with
      | none =>
          dsimp only
          split <;> rfl
      | some gx =>
          dsimp only
          split <;> split <;> rfl

theorem createMetrics_capHeight (f : Font) :
    (createMetrics f).capHeight =
      (match charToGlyph f 'H' with
       | some g =>
           if uniTruthy g.unicode then (pathBBox g.path).y2 - (pathBBox g.path).y1 else 0
       | none => 0) := by
  unfold createMetrics
  dsimp only
  cases charToGlyph f 'H' with
  | none =>
      cases charToGlyph f 'x' with
      | none => rfl
      | some gx =>
          dsimp only
          split <;> rfl
  | some gH =>
      cases charToGlyph f 'x' with
      | none =>
          dsimp only
          split <;> rfl
      | some gx =>
          dsimp only
          split <;> split <;> rfl

/-- C9: in the metrics extractor, a font whose `x` glyph has no outline
yields `xHeight = 0`; a font whose `H` resolves to a real mapped glyph
(truthy Unicode) with bounding box `(0, 0, 700, 700)` yields
`capHeight = 700`; and an `H` that does not resolve to a real mapped glyph
contributes the `0` default. -/
theorem C9_metrics_heights (f : Font) :
    ((∀ g, charToGlyph f 'x' = some g → g.path = []) → (createMetrics f).xHeight = 0) ∧
    (∀ g, charToGlyph f 'H' = some g → uniTruthy g.unicode = true →
      pathBBox g.path = ⟨0, 0, 700, 700⟩ → (createMetrics f).capHeight = 700) ∧
    ((charToGlyph f 'H' = none ∨ ∃ g, charToGlyph f 'H' = some g ∧ uniTruthy g.unicode = false) →
      (createMetrics f).capHeight = 0) := by
  refine ⟨?_, ?_, ?_⟩
  · intro hx
    rw [createMetrics_xHeight]
    cases hxg : charToGlyph f 'x' with
    | none => rfl
    | some g =>
        dsimp only
        rw [hx g hxg]
        have hbox : pathBBox ([] : List PathCommand) = ⟨0, 0, 0, 0⟩ := rfl
        rw [hbox]
        dsimp only
        split
        · norm_num
        · rfl
  · intro g hH hu hbox
    rw [createMetrics_capHeight, hH]
    dsimp only
    rw [if_pos hu, hbox]
    norm_num
  · intro h
    rw [createMetrics_capHeight]
    rcases h with h | ⟨g, hH, hu⟩
    · rw [h]
    · rw [hH]
      dsimp only
      rw [if_neg (by rw [hu]; exact Bool.false_ne_true)]

/-- C9 witness: the probe fonts — empty `x` outline gives `xHeight = 0`,
the `(0,0,700,700)` H box gives `capHeight = 700`, and an `H` glyph without
a Unicode assignment gives `capHeight = 0`. -/
theorem C9_witness :
    (createMetrics fontC9).xHeight = 0 ∧
    (createMetrics fontC9).capHeight = 700 ∧
    (createMetrics fontC9b).capHeight = 0 := by
  refine ⟨?_, ?_, ?_⟩
  · exact (C9_metrics_heights fontC9).1 (by
      intro g hg
      have hgx : charToGlyph fontC9 'x'
          = some (⟨some "x", some 120, [], 300, none⟩ : Glyph) := by
        with_unfolding_all decide
      rw [hgx] at hg
      rw [← Option.some.inj hg])
  · exact (C9_metrics_heights fontC9).2.1
      { name := some "H"
        unicode := some 72
        path := [lineCmd 0 0, lineCmd 700 700]
        advanceWidth := 800 }
      (by with_unfolding_all decide) (by with_unfolding_all decide)
      (by with_unfolding_all decide)
  · exact (C9_metrics_heights fontC9b).2.2 (Or.inr ⟨_,
      (by with_unfolding_all decide :
        charToGlyph fontC9b 'H' = some { name := some "H"
                                         unicode := none
                                         path := [lineCmd 0 0, lineCmd 700 700]
                                         advanceWidth := 800 }),
      by with_unfolding_all decide⟩)

/-- C7 counterexample: the sanitizer's character class keeps periods, so a
glyph named `one.alt` keeps that name after `ensureGlyphNames`, and `.` is
not an alphanumeric-or-underscore character as the claim asserts. -/
theorem C7_counterexample :
    (glyphAt (ensureGlyphNames fontC7) 0).map Glyph.name = some (some "one.alt") ∧
    '.' ∈ "one.alt".data ∧ isAlnumUnderscore '.' = false := by
  refine ⟨?_, ?_, ?_⟩
  · with_unfolding_all decide
  · decide
  · decide

/-- C7 (amended): after `ensureGlyphNames`, every glyph's name is a
non-empty string whose characters all belong to the source's safe class —
alphanumerics, underscores and periods (the sanitizer's class `[a-zA-Z0-9._]`
preserves periods, which the original claim omitted). -/
theorem C7_names_nonempty_safe (f : Font) (i : Nat) (g' : Glyph)
    (hg : glyphAt (ensureGlyphNames f) i = some g') :
    ∃ s, g'.name = some s ∧ s.length ≠ 0 ∧ s.data.all isSafeChar = true := by
  unfold ensureGlyphNames at hg
  split at hg
  next hlen =>
      exfalso
      have : f.glyphs = [] := List.length_eq_zero.mp hlen
      unfold glyphAt at hg
      rw [this] at hg
      simp [List.get?] at hg
  next hlen =>
      unfold glyphAt at hg
      dsimp only at hg
      rw [ensureLoop_get f.glyphs 0 i] at hg
      obtain ⟨g0, hg0, hmap⟩ := Option.map_eq_some'.mp hg
      rw [← hmap]
      exact ensureGlyphName_spec (0 + i) g0

/-- C7 witness: the demo font's glyph keeps a safe, non-empty name. -/
theorem C7_witness :
    ∃ s, (ensureGlyphName 0 (⟨some "one.alt", some 49, [], 500, none⟩ : Glyph)).name = some s ∧
      s.length ≠ 0 ∧ s.data.all isSafeChar = true :=
  C7_names_nonempty_safe fontC7 0
    (ensureGlyphName 0 (⟨some "one.alt", some 49, [], 500, none⟩ : Glyph))
    (by with_unfolding_all decide)

/-- C8 counterexample: with a serializer that yields an empty buffer, the
body of `createFontUrl` does throw ("Generated font buffer is empty"), but
the function's own `catch` swallows it and the caller receives the normal
return value `""` — no hard error is surfaced to the caller. -/
theorem C8_counterexample :
    createFontUrlCore [] demoMkUrl = Except.error "Generated font buffer is empty" ∧
    createFontUrl [] demoMkUrl = "" := by
  constructor
  · rfl
  · rfl

/-- C8 (amended): when serialization produces an empty output buffer, the
export path raises the hard error internally, catches it itself, and
returns the empty-string sentinel — in particular no URL over a partial
binary is ever produced. -/
theorem C8_empty_buffer_sentinel (buffer : List Nat) (mkUrl : List Nat → String)
    (h : buffer.length = 0) :
    createFontUrlCore buffer mkUrl = Except.error "Generated font buffer is empty" ∧
    createFontUrl buffer mkUrl = "" ∧
    ∀ url, createFontUrl buffer mkUrl = url → url ≠ mkUrl buffer ∨ mkUrl buffer = "" := by
  have hcore : createFontUrlCore buffer mkUrl = Except.error "Generated font buffer is empty" := by
    unfold createFontUrlCore
    rw [if_pos h]
  refine ⟨hcore, ?_, ?_⟩
  · unfold createFontUrl
    rw [hcore]
  · intro url hurl
    unfold createFontUrl at hurl
    rw [hcore] at hurl
    by_cases hm : mkUrl buffer = ""
    · exact Or.inr hm
    · left
      rw [← hurl]
      intro hc
      exact hm hc.symm

/-- C8 witness: the amended statement at the empty buffer. -/
theorem C8_witness :
    createFontUrlCore [] demoMkUrl = Except.error "Generated font buffer is empty" ∧
    createFontUrl [] demoMkUrl = "" ∧
    ∀ url, createFontUrl [] demoMkUrl = url → url ≠ demoMkUrl [] ∨ demoMkUrl [] = "" :=
  C8_empty_buffer_sentinel [] demoMkUrl rfl

/-- Helper: the final metrics of a letter whose last touch in Method A is
its own rule entry `(X, lz, rz)`, read back through `getCharMetrics`. -/
theorem tracy_letter_value (f : Font) (s : SpacingSettings) (X : Char) (i : Nat) (g : Glyph)
    (lz rz : ℤ) (pre post : List Rule)
    (hdec : tracyRules s = pre ++ (X, some (lz : ℚ), some (rz : ℚ)) :: post)
    (hidx : charToGlyphIndex f X = some i) (hg : glyphAt f i = some g)
    (hsp : isSpaceGlyph g = false) (hnd : pathPoints g.path ≠ [])
    (honly : CmapOnly f X i)
    (hd : ∀ ch ∈ diacriticsOf X, ch ≠ X)
    (hpost : ∀ rl ∈ post, ∀ ch ∈ rl.1 :: diacriticsOf rl.1, ch ≠ X)
    (hov : ∀ p ∈ s.overrides, p.1 ≠ X) :
    getCharMetrics (applyTracyMethod f s) X = ((lz : ℚ), (rz : ℚ)) := by
  obtain ⟨g', hat, hsp', hpts', habs, hrsb⟩ :=
    applyTracy_final_rule f s X i (lz : ℚ) (rz : ℚ) pre post hdec hidx ⟨g, hg, hsp, hnd⟩
      (fun ch hch => cmapOnly_ne f X i honly ch (hd ch hch))
      (fun rl hrl ch hch => cmapOnly_ne f X i honly ch (hpost rl hrl ch hch))
      (fun p hp => cmapOnly_ne f X i honly p.1 (hov p hp))
  have hidx' : charToGlyphIndex (applyTracyMethod f s) X = some i := by
    unfold applyTracyMethod
    rw [charToGlyphIndex_ovFold, charToGlyphIndex_ruleFold]
    exact hidx
  exact getCharMetrics_of_glyph (applyTracyMethod f s) X i g' lz rz hidx' hat hpts' habs hrsb

/-- C2: with masters `H={80,80}`, `O={70,70}`, `n={40,35}`, `o={45,45}` and
no overrides, Method A leaves `M` and `N` with
`lsb = rsb = round(80 * 1.15) = 92` and `T` with
`lsb = rsb = max(5, round(80 * 0.25)) = 20`, for any font whose `M`, `N`
and `T` resolve to distinct non-space glyphs with non-degenerate paths. -/
theorem C2_tracy_scenario (f : Font) (iM iN iT : Nat) (gM gN gT : Glyph)
    (hMidx : charToGlyphIndex f 'M' = some iM) (hMg : glyphAt f iM = some gM)
    (hMsp : isSpaceGlyph gM = false) (hMnd : pathPoints gM.path ≠ [])
    (hMonly : CmapOnly f 'M' iM)
    (hNidx : charToGlyphIndex f 'N' = some iN) (hNg : glyphAt f iN = some gN)
    (hNsp : isSpaceGlyph gN = false) (hNnd : pathPoints gN.path ≠ [])
    (hNonly : CmapOnly f 'N' iN)
    (hTidx : charToGlyphIndex f 'T' = some iT) (hTg : glyphAt f iT = some gT)
    (hTsp : isSpaceGlyph gT = false) (hTnd : pathPoints gT.path ≠ [])
    (hTonly : CmapOnly f 'T' iT) :
    getCharMetrics (applyTracyMethod f tracySettingsC2) 'M' = (92, 92) ∧
    getCharMetrics (applyTracyMethod f tracySettingsC2) 'N' = (92, 92) ∧
    getCharMetrics (applyTracyMethod f tracySettingsC2) 'T' = (20, 20) := by
  have hovnil : ∀ p ∈ tracySettingsC2.overrides, p.1 ≠ 'M' ∧ p.1 ≠ 'N' ∧ p.1 ≠ 'T' := by
    intro p hp
    exact absurd hp (List.not_mem_nil p)
  refine ⟨?_, ?_, ?_⟩
  · have h := tracy_letter_value f tracySettingsC2 'M' iM gM 92 92
      ((tracyRules tracySettingsC2).take 16) ((tracyRules tracySettingsC2).drop 17)
      (by with_unfolding_all decide) hMidx hMg hMsp hMnd hMonly
      (by decide) (by with_unfolding_all decide)
      (fun p hp => (hovnil p hp).1)
    rw [h]
    norm_num
  · have h := tracy_letter_value f tracySettingsC2 'N' iN gN 92 92
      ((tracyRules tracySettingsC2).take 17) ((tracyRules tracySettingsC2).drop 18)
      (by with_unfolding_all decide) hNidx hNg hNsp hNnd hNonly
      (by decide) (by with_unfolding_all decide)
      (fun p hp => (hovnil p hp).2.1)
    rw [h]
    norm_num
  · have h := tracy_letter_value f tracySettingsC2 'T' iT gT 20 20
      ((tracyRules tracySettingsC2).take 23) ((tracyRules tracySettingsC2).drop 24)
      (by with_unfolding_all decide) hTidx hTg hTsp hTnd hTonly
      (by decide) (by with_unfolding_all decide)
      (fun p hp => (hovnil p hp).2.2)
    rw [h]
    norm_num

/-- C2 witness: the scenario run on a concrete three-glyph font. -/
theorem C2_witness :
    getCharMetrics (applyTracyMethod fontC2 tracySettingsC2) 'M' = (92, 92) ∧
    getCharMetrics (applyTracyMethod fontC2 tracySettingsC2) 'N' = (92, 92) ∧
    getCharMetrics (applyTracyMethod fontC2 tracySettingsC2) 'T' = (20, 20) :=
  C2_tracy_scenario fontC2 0 1 2 glyphM glyphN glyphT
    (by with_unfolding_all decide) (by with_unfolding_all decide)
    (by with_unfolding_all decide) (by with_unfolding_all decide)
    (by unfold CmapOnly; with_unfolding_all decide)
    (by with_unfolding_all decide) (by with_unfolding_all decide)
    (by with_unfolding_all decide) (by with_unfolding_all decide)
    (by unfold CmapOnly; with_unfolding_all decide)
    (by with_unfolding_all decide) (by with_unfolding_all decide)
    (by with_unfolding_all decide) (by with_unfolding_all decide)
    (by unfold CmapOnly; with_unfolding_all decide)

/-- C3: for both algorithms, a letter `X` with a non-degenerate non-space
glyph and an explicit `{lsb, rsb}` override ends with the override values
(so not any differing derived value); for Method B this holds even when `X`
is a master letter, because the final master re-assertion is skipped for
any master present in the override map. -/
theorem C3_override_precedence (f : Font) (X : Char) (i : Nat) (fL fR : ℚ)
    (sT sS : SpacingSettings) (preT postT preS postS : List Rule)
    (hOnly : CmapOnly f X i) (hidx : charToGlyphIndex f X = some i)
    (hgood : GoodAt f i)
    (hdecT : sT.overrides = preT ++ (X, some fL, some fR) :: postT)
    (hpostT : ∀ p ∈ postT, p.1 ≠ X)
    (hdecS : sS.overrides = preS ++ (X, some fL, some fR) :: postS)
    (hpostS : ∀ p ∈ postS, p.1 ≠ X) :
    (∃ g', glyphAt (applyTracyMethod f sT) i = some g' ∧
      |lsbOf g' - fL| ≤ 1/1000 ∧ rsbOf g' = fR) ∧
    (∃ g', glyphAt (applySousaMethod f sS) i = some g' ∧
      |lsbOf g' - fL| ≤ 1/1000 ∧ rsbOf g' = fR) := by
  constructor
  · obtain ⟨g', h1, _, _, h4, h5⟩ :=
      applyTracy_final_override f sT X i fL fR preT postT hdecT hidx hgood
        (fun p hp => cmapOnly_ne f X i hOnly p.1 (hpostT p hp))
    exact ⟨g', h1, h4, h5⟩
  · obtain ⟨g', h1, _, _, h4, h5⟩ :=
      applySousa_final_override f sS X i fL fR preS postS hdecS hOnly hidx hgood
        (fun p hp => cmapOnly_ne f X i hOnly p.1 (hpostS p hp))
    exact ⟨g', h1, h4, h5⟩

/-- C3 witness: overriding the master letter `H` with `{33, 44}` wins under
both algorithms on a concrete font. -/
theorem C3_witness :
    (∃ g', glyphAt (applyTracyMethod fontC3 settingsC3) 0 = some g' ∧
      |lsbOf g' - 33| ≤ 1/1000 ∧ rsbOf g' = 44) ∧
    (∃ g', glyphAt (applySousaMethod fontC3 settingsC3) 0 = some g' ∧
      |lsbOf g' - 33| ≤ 1/1000 ∧ rsbOf g' = 44) :=
  C3_override_precedence fontC3 'H' 0 33 44 settingsC3 settingsC3 [] [] [] []
    (by unfold CmapOnly; with_unfolding_all decide)
    (by with_unfolding_all decide)
    ⟨glyphH3, by with_unfolding_all decide, by with_unfolding_all decide,
      by with_unfolding_all decide⟩
    (by with_unfolding_all decide) (fun p hp => absurd hp (List.not_mem_nil p))
    (by with_unfolding_all decide) (fun p hp => absurd hp (List.not_mem_nil p))

/-- C4: both algorithms propagate a base letter's resolved pair through the
shared base-plus-diacritics step: after `applyRule` applies `(l, r)` to base
letter `c`, every variant `ch` listed for `c` in the diacritics map carries
the identical pair.  In particular, with masters under which Method A
derives `{50, 50}` for `A` and no override for `Á`, the full Method A run
leaves both `A` and `Á` at `{50, 50}`. -/
theorem C4_diacritic_propagation :
    (∀ (f : Font) (c ch : Char) (fL fR : ℚ) (i : Nat) (cpre cpost : List Char),
      diacriticsOf c = cpre ++ ch :: cpost → (∀ x ∈ cpost, x ≠ ch) →
      CmapOnly f ch i → charToGlyphIndex f ch = some i → GoodAt f i →
      ∃ g', glyphAt (applyRule f c (some fL) (some fR)) i = some g' ∧
        |lsbOf g' - fL| ≤ 1/1000 ∧ rsbOf g' = fR) ∧
    getCharMetrics (applyTracyMethod fontC4 tracySettingsC4) 'A' = (50, 50) ∧
    getCharMetrics (applyTracyMethod fontC4 tracySettingsC4) 'Á' = (50, 50) := by
  refine ⟨?_, ?_, ?_⟩
  · intro f c ch fL fR i cpre cpost hsplit hnot hOnly hidx hgood
    obtain ⟨g', h1, _, _, h4, h5⟩ :=
      applyRule_child_final f c ch fL fR i cpre cpost hsplit hnot hOnly hidx hgood
    exact ⟨g', h1, h4, h5⟩
  · with_unfolding_all decide
  · with_unfolding_all decide

/-- C4 witness: the propagation statement at the concrete font, base `A`,
variant `Á`, pair `(50, 50)`. -/
theorem C4_witness :
    ∃ g', glyphAt (applyRule fontC4 'A' (some 50) (some 50)) 1 = some g' ∧
      |lsbOf g' - 50| ≤ 1/1000 ∧ rsbOf g' = 50 :=
  C4_diacritic_propagation.1 fontC4 'A' 'Á' 50 50 1 []
    ['À', 'Â', 'Ä', 'Ã', 'Å', 'Ā', 'Ă', 'Ą', 'Ǎ', 'Ǻ']
    (by decide) (by decide)
    (by unfold CmapOnly; with_unfolding_all decide)
    (by with_unfolding_all decide)
    ⟨glyphAacute4, by with_unfolding_all decide, by with_unfolding_all decide,
      by with_unfolding_all decide⟩

/-- C6: for every buffer whose table directory is readable (table count at
offset 4, 16-byte entries from offset 12), the sanitizer keeps the length,
rewrites exactly the denylisted 4-byte tags to the sentinel `void`, leaves
every byte outside the tag positions (hence every other table's tag)
unchanged, and on any structural read failure returns the original bytes
(the model is pure, so the caller's buffer is never mutated). -/
theorem C6_sanitizer :
    (∀ (b : List Nat) (n : Nat), getUint16? b 4 = some n → 12 + 16 * n ≤ b.length →
      (stripLayoutTables b).length = b.length ∧
      (∀ j, j < n → tagAt (stripLayoutTables b) (12 + 16 * j)
          = (tagAt b (12 + 16 * j)).map voidify) ∧
      (∀ idx, (∀ j, j < n → idx < 12 + 16 * j ∨ 12 + 16 * j + 4 ≤ idx) →
        (stripLayoutTables b).get? idx = b.get? idx)) ∧
    (∀ b : List Nat, stripTry b = none → stripLayoutTables b = b) := by
  constructor
  · intro b n hn hlen
    obtain ⟨b', hloop, hblen, htags, hpres⟩ := stripLoop_spec n b 12 (by omega)
    have htry : stripTry b = some b' := by
      unfold stripTry
      rw [hn]
      exact hloop
    have hstrip : stripLayoutTables b = b' := by
      unfold stripLayoutTables
      rw [htry]
    rw [hstrip]
    exact ⟨hblen, htags, hpres⟩
  · intro b h
    unfold stripLayoutTables
    rw [h]

/-- C6 witness: on the demo buffer the `GPOS` tag becomes `void`, the
`cmap` tag and the header bytes are untouched, and the length is kept. -/
theorem C6_witness :
    (stripLayoutTables demoBuf).length = 44 ∧
    tagAt (stripLayoutTables demoBuf) 12 = some voidTagBytes ∧
    tagAt (stripLayoutTables demoBuf) 28 = some (99, 109, 97, 112) ∧
    (stripLayoutTables demoBuf).get? 0 = some 0 := by
  obtain ⟨hlen, htags, hpres⟩ := C6_sanitizer.1 demoBuf 2 (by decide) (by decide)
  refine ⟨?_, ?_, ?_, ?_⟩
  · rw [hlen]
    decide
  · have h0 := htags 0 (by omega)
    have he : 12 + 16 * 0 = 12 := by norm_num
    rw [he] at h0
    rw [h0]
    decide
  · have h1 := htags 1 (by omega)
    have he : 12 + 16 * 1 = 28 := by norm_num
    rw [he] at h1
    rw [h1]
    decide
  · have h := hpres 0 (by
      intro j hj
      omega)
    rw [h]
    decide
